import Mathlib

/-!
Verification of the asset-management / automated-trading pipeline.

Shallow embedding of the Rust sources:
* `src/rust/speculator/src/indicator/chart.rs` (candlestick indicator)
* `src/rust/speculator/src/indicator/rsi.rs` (RSI history)
* `src/rust/speculator/src/rule/{fixed,rsi_cross,rsi_divergence}.rs` (rules)
* `src/rust/speculator/src/indicator.rs` (DataItem buffer used by the divergence rule)
* `src/rust/speculator/src/trade.rs` (trade aggregation)
* `src/rust/nicehash_speculator/src/main.rs` (trade simulator)
* `src/rust/server/src/exchange_graph.rs` (exchange-rate graph)

Modelling conventions: wall-clock instants are naturals (UTC-naive timestamps
compared by integer ordering, per the source); `f64`/`f32` prices, amounts and
rates are rationals, with the non-finite results of floating-point division
modelled explicitly by `Option` at the spot where the source checks
`is_finite` or where a division by zero can occur; database ids are integers.
-/

namespace AssetMgmt

/-- UTC-naive instant, compared by integer ordering (`chrono::NaiveDateTime`). -/
abbrev Instant := ℕ

/-- `database::custom_sql_type::OrderSide`. -/
inductive OrderSide where
  | buy
  | sell
deriving DecidableEq, Repr

/-- `database::custom_sql_type::OrderType`. -/
inductive OrderType where
  | limit
  | market
  | stopLimit
  | stopMarket
deriving DecidableEq, Repr

/-- `database::custom_sql_type::OrderState`. -/
inductive OrderState where
  | opened
  | filled
  | cancelled
  | error
deriving DecidableEq, Repr

/-- `database::model::Stamp`: `{stamp_id, timestamp}`. -/
structure Stamp where
  stamp_id : ℤ
  timestamp : Instant
deriving DecidableEq, Repr

/-- `database::model::Balance`: `{balance_id, currency_id, stamp_id, available, pending}`,
amounts (`f32`) as rationals. -/
structure Balance where
  balance_id : ℤ
  currency_id : ℤ
  stamp_id : ℤ
  available : ℚ
  pending : ℚ
deriving DecidableEq, Repr

/-- `database::model::Market`: `{market_id, base_id, quote_id}`. -/
structure Market where
  market_id : ℤ
  base_id : ℤ
  quote_id : ℤ
deriving DecidableEq, Repr

/-- `database::model::Price`: `{price_id, market_id, stamp_id, amount}`. -/
structure Price where
  price_id : ℤ
  market_id : ℤ
  stamp_id : ℤ
  amount : ℚ
deriving DecidableEq, Repr

/-- `database::model::Orderbook`: `{orderbook_id, market_id, stamp_id, side, price, volume}`. -/
structure Orderbook where
  orderbook_id : ℤ
  market_id : ℤ
  stamp_id : ℤ
  side : OrderSide
  price : ℚ
  volume : ℚ
deriving DecidableEq, Repr

/-- `database::model::MyOrder`. The string `transaction_id` is modelled as an
integer; it is never inspected by the embedded code. -/
structure MyOrder where
  myorder_id : ℤ
  transaction_id : ℤ
  market_id : ℤ
  created_stamp_id : ℤ
  modified_stamp_id : ℤ
  price : ℚ
  base_quantity : ℚ
  quote_quantity : ℚ
  order_type : OrderType
  side : OrderSide
  state : OrderState
deriving DecidableEq, Repr

/-! ## Candlestick indicator (`indicator/chart.rs`) -/

/-- `PriceStamp` from `indicator/chart.rs`: an instant together with a price. -/
structure PriceStamp where
  stamp : Instant
  price : ℚ
deriving DecidableEq, Repr

/-- `Candlestick` from `indicator/chart.rs`.  The field `open` is a Lean
keyword, hence `open_`. -/
structure Candlestick where
  open_ : PriceStamp
  close : PriceStamp
  high : PriceStamp
  low : PriceStamp
deriving DecidableEq, Repr

/-- The body of the loop in `Candlestick::from_price_stamps`: fold one further
`PriceStamp` into the stick under construction.  `close` always moves to the
newcomer; `high`/`low` move only under strict improvement (`<` resp. `>`), so
ties keep the earlier stamp.  (The Rust `assert!(close.stamp < ps.stamp)` is a
panic on non-monotonic input; all theorems below restrict to strictly
increasing sequences, where the assertion passes.) -/
def Candlestick.fold_price_stamp (acc : Candlestick) (ps : PriceStamp) : Candlestick :=
  { open_ := acc.open_
    close := ps
    high := if acc.high.price < ps.price then ps else acc.high
    low := if acc.low.price > ps.price then ps else acc.low }

/-- `Candlestick::from_price_stamps` on a non-empty buffer `first :: rest`
(the source `expect`s non-emptiness at both call sites). -/
def Candlestick.from_price_stamps1 (first : PriceStamp) (rest : List PriceStamp) : Candlestick :=
  rest.foldl Candlestick.fold_price_stamp
    { open_ := first, close := first, high := first, low := first }

/-- `Candlestick::from_price_stamps`: `None` on an empty iterator. -/
def Candlestick.from_price_stamps : List PriceStamp → Option Candlestick
  | [] => none
  | first :: rest => some (Candlestick.from_price_stamps1 first rest)

/-- `duration_trunc` of chrono under UTC for positive instants: truncate the
instant down to a multiple of the (positive) span. -/
def duration_trunc (span : ℕ) (t : Instant) : Instant :=
  t / span * span

/-- The strict-increase order on price stamps used throughout the indicator. -/
def stampLt (a b : PriceStamp) : Prop := a.stamp < b.stamp

instance : DecidableRel stampLt := fun a b => inferInstanceAs (Decidable (a.stamp < b.stamp))

/-! ## RSI history (`indicator/rsi.rs`) -/

/-- `PriceChange` from `indicator/rsi.rs`. -/
inductive PriceChange where
  | increase (c : ℚ)
  | decrease (c : ℚ)
deriving DecidableEq, Repr

/-- `PriceChange::from_change`: a positive change is an increase, any other
change a decrease of the negated change (a zero change becomes
`decrease 0`). -/
def PriceChange.from_change (change : ℚ) : PriceChange :=
  if change > 0 then .increase change else .decrease (-change)

/-- The fold inside `Rsi::from_changes`, accumulating the
`(increase, decrease)` sums. -/
def rsi_fold (changes : List PriceChange) : ℚ × ℚ :=
  changes.foldl
    (fun acc change =>
      match change with
      | .increase c => (acc.1 + c, acc.2)
      | .decrease c => (acc.1, acc.2 + c))
    (0, 0)

/-- `Rsi::from_changes`: `increase / (increase + decrease)`.  Both sums are
non-negative, so the `f64` quotient fails the source's `is_finite` check
exactly when the denominator is zero; there the source returns `None`. -/
def Rsi.from_changes (changes : List PriceChange) : Option ℚ :=
  let s := rsi_fold changes
  if s.1 + s.2 = 0 then none else some (s.1 / (s.1 + s.2))

/-- `RsiStamp` from `indicator/rsi.rs` (instantiated at instants, as used by
the speculator): the instants of the first and last price stamp used, plus
the RSI value in `[0,1]`. -/
structure RsiStamp where
  open_ : Instant
  close : Instant
  rsi : ℚ
deriving DecidableEq, Repr

/-- `IncompleteRsiHistory`: the prices seen after the last determined
candlestick. -/
structure IncompleteRsiHistory where
  span : ℕ
  prices : List PriceStamp
deriving DecidableEq, Repr

/-- `IncompleteRsiUpdate`. -/
inductive IncompleteRsiUpdate where
  | candlestickDetermined (stick : Candlestick)
  | toBeContinued
  | err
deriving DecidableEq, Repr

/-- The part of `IncompleteRsiHistory::update` after the timestamp guard:
match on the first buffered price; same bucket (by `duration_trunc` of the
first price) appends, a different bucket emits the candlestick of the
buffered prices and restarts the buffer from the new price. -/
def IncompleteRsiHistory.update_body (h : IncompleteRsiHistory) (ps : PriceStamp) :
    IncompleteRsiHistory × IncompleteRsiUpdate :=
  match h.prices with
  | [] => ({ h with prices := h.prices ++ [ps] }, .toBeContinued)
  | first :: rest =>
    if duration_trunc h.span first.stamp = duration_trunc h.span ps.stamp then
      ({ h with prices := h.prices ++ [ps] }, .toBeContinued)
    else
      ({ h with prices := [ps] },
        .candlestickDetermined (Candlestick.from_price_stamps1 first rest))

/-- `IncompleteRsiHistory::update`.  The timestamp guard runs before any
mutation, so the state comes back unchanged on the error. -/
def IncompleteRsiHistory.update (h : IncompleteRsiHistory) (ps : PriceStamp) :
    IncompleteRsiHistory × IncompleteRsiUpdate :=
  match h.prices.getLast? with
  | some last => if ps.stamp ≤ last.stamp then (h, .err) else h.update_body ps
  | none => h.update_body ps

/-- `RsiHistory` from `indicator/rsi.rs`. -/
structure RsiHistory where
  candlestick_span : ℕ
  candlestick_required_count : ℕ
  candlesticks : List Candlestick
  candlestick_rsis : List RsiStamp
  incomplete_history : IncompleteRsiHistory
  is_all_candlestick_determined : Bool
deriving DecidableEq, Repr

/-- `RsiHistory::new`. -/
def RsiHistory.new (span required_count : ℕ) : RsiHistory :=
  { candlestick_span := span
    candlestick_required_count := required_count
    candlesticks := []
    candlestick_rsis := []
    incomplete_history := { span := span, prices := [] }
    is_all_candlestick_determined := false }

/-- `RsiHistory::calculate_rsi_of` applied to the `PriceStamp`s handed to it:
the result stamp carries the first and last instants, the RSI comes from the
consecutive price differences (`tuple_windows`). -/
def RsiHistory.calculate_rsi_of (l : List PriceStamp) : Option RsiStamp :=
  match l with
  | [] => none
  | first :: _ =>
    let changes := (l.zip l.tail).map
      (fun pq => PriceChange.from_change (pq.2.price - pq.1.price))
    (Rsi.from_changes changes).map
      (fun r => { open_ := first.stamp, close := (l.getLastD first).stamp, rsi := r })

/-- `RsiHistory::calculate_rsi`, parameterised over the stick list it reads
(`self.candlesticks`): `None` below `candlestick_required_count` sticks,
otherwise `calculate_rsi_of` over the `open` price stamps of the last
`candlestick_required_count` sticks. -/
def calculate_rsi_aux (required_count : ℕ) (sticks : List Candlestick) : Option RsiStamp :=
  if sticks.length < required_count then none
  else RsiHistory.calculate_rsi_of
    ((sticks.drop (sticks.length - required_count)).map Candlestick.open_)

/-- `RsiHistory::calculate_rsi`. -/
def RsiHistory.calculate_rsi (h : RsiHistory) : Option RsiStamp :=
  calculate_rsi_aux h.candlestick_required_count h.candlesticks

/-- `RsiHistory::update`.  On a newly determined candlestick the source first
pushes the stick and then calls `calculate_rsi` on the pushed list
(`h.candlesticks ++ [stick]` below); a defined RSI is pushed onto
`candlestick_rsis` and sets the determination flag, an undefined one pushes
nothing and clears it. -/
def RsiHistory.update (h : RsiHistory) (ps : PriceStamp) : Except Unit RsiHistory :=
  match h.incomplete_history.update ps with
  | (ih, .candlestickDetermined stick) =>
    match calculate_rsi_aux h.candlestick_required_count (h.candlesticks ++ [stick]) with
    | some rsi =>
      .ok { h with incomplete_history := ih,
                   candlesticks := h.candlesticks ++ [stick],
                   candlestick_rsis := h.candlestick_rsis ++ [rsi],
                   is_all_candlestick_determined := true }
    | none =>
      .ok { h with incomplete_history := ih,
                   candlesticks := h.candlesticks ++ [stick],
                   is_all_candlestick_determined := false }
  | (ih, .toBeContinued) =>
    .ok { h with incomplete_history := ih, is_all_candlestick_determined := false }
  | (_, .err) => .error ()

/-- The RSI formula exactly as the specification words it, over close (or any)
prices `p_0 ... p_(N-1)`: over the successive differences, `U` sums the
positive ones, `D` the magnitudes of the negative ones, and
`RSI = U / (U + D)` when `U + D > 0`, else undefined. -/
def specRsiFormula (prices : List ℚ) : Option ℚ :=
  let ds := (prices.zip prices.tail).map (fun pq => pq.2 - pq.1)
  let u := (ds.map (fun d => max d 0)).sum
  let dd := (ds.map (fun d => max (-d) 0)).sum
  if u + dd = 0 then none else some (u / (u + dd))

/-! ## Rule contract (`rule.rs`) -/

/-- `RecommendationType` from `rule.rs`. -/
inductive RecommendationType where
  | buy
  | sell
  | pending
  | neutral
deriving DecidableEq, Repr

/-- `MarketState` from `rule.rs`. -/
structure MarketState where
  stamp : Stamp
  price : Price
  orderbooks : List Orderbook
  myorders : List MyOrder
deriving DecidableEq, Repr

/-- `RuleError` from `rule.rs` (`Other` carries a boxed error that is never
inspected). -/
inductive RuleError where
  | marketConstraint
  | stampConstraint
  | other
deriving DecidableEq, Repr

/-- `Rule::is_correct_market_state`: the price, every orderbook and every
myorder must carry the rule's market id. -/
def is_correct_market_state (market : Market) (ms : MarketState) : Bool :=
  (ms.price.market_id == market.market_id) &&
  ms.orderbooks.all (fun o => o.market_id == market.market_id) &&
  ms.myorders.all (fun m => m.market_id == market.market_id)

/-! ## Fixed rule (`rule/fixed.rs`) -/

/-- `FixedRule`: a market and a fixed side; it holds no further state. -/
structure FixedRule where
  market : Market
  side : OrderSide
deriving DecidableEq, Repr

/-- `FixedRule::update_market_state`: only the market constraint is checked;
there is no stamp bookkeeping at all and the rule state never changes. -/
def FixedRule.update_market_state (r : FixedRule) (ms : MarketState) :
    FixedRule × Option RuleError :=
  if is_correct_market_state r.market ms then (r, none) else (r, some .marketConstraint)

/-- `FixedRule::recommend` (via `FixedRuleRecommendation`). -/
def FixedRule.recommend (r : FixedRule) : RecommendationType :=
  match r.side with
  | .buy => .buy
  | .sell => .sell

/-! ## RSI-cross rule (`rule/rsi_cross.rs`) -/

/-- `RsiCrossParameter`; the four triggers are `Rsi` values on the `[0,1]`
scale produced by `Rsi::from_percent` (percent divided by 100). -/
structure RsiCrossParameter where
  candlestick_interval : ℕ
  candlestick_required_count : ℕ
  buy : ℚ
  sell : ℚ
  upper_pending : ℚ
  lower_pending : ℚ
deriving DecidableEq, Repr

/-- The five shapes of `RsiCrossRecommendation`, without the carried
parameters. -/
inductive RsiCrossKind where
  | buy
  | sell
  | pending
  | neutral
  | rsiUndetermined
deriving DecidableEq, Repr

/-- `recommendation_type()` of `RsiCrossRecommendation`: `RsiUndetermined`
maps to `Neutral`. -/
def RsiCrossKind.recommendation_type : RsiCrossKind → RecommendationType
  | .buy => .buy
  | .sell => .sell
  | .pending => .pending
  | .neutral => .neutral
  | .rsiUndetermined => .neutral

/-- `iter().tuple_windows().last()`: the last two elements of a list, in
order, when it has at least two. -/
def last_two {α : Type} (l : List α) : Option (α × α) :=
  match l.reverse with
  | c :: p :: _ => some (p, c)
  | _ => none

/-- The `match (prev, current)` of `RsiCrossRule::recommend`, with the arms in
source order: Buy cross, Sell cross, then the two Pending checks, then
Neutral.  The arms with a `(_, Some current)` pattern also catch the case
where `prev` is defined but neither cross guard fired. -/
def rsi_cross_evaluate (p : RsiCrossParameter) :
    Option ℚ → Option ℚ → RsiCrossKind
  | some prev, some current =>
    if prev < p.buy ∧ current ≥ p.buy then .buy
    else if prev > p.sell ∧ current ≤ p.sell then .sell
    else if current > p.upper_pending then .pending
    else if current < p.lower_pending then .pending
    else .neutral
  | none, some current =>
    if current > p.upper_pending then .pending
    else if current < p.lower_pending then .pending
    else .neutral
  | _, none => .neutral

/-- `RsiCrossRule::recommend` as a function of the rule's RSI sequence (each
element an `Option` RSI on the `[0,1]` scale) and of
`is_candlestick_determined_just_now`: without two history entries, or when no
candlestick was determined just now, the result is `RsiUndetermined`. -/
def rsi_cross_recommend (p : RsiCrossParameter) (rsis : List (Option ℚ))
    (just_now : Bool) : RsiCrossKind :=
  match last_two rsis with
  | none => .rsiUndetermined
  | some (prev, current) =>
    if just_now then rsi_cross_evaluate p prev current else .rsiUndetermined

/-- `RsiCrossRule`. -/
structure RsiCrossRule where
  market : Market
  parameter : RsiCrossParameter
  market_states : List MarketState
  rsi_history : RsiHistory
deriving Repr

/-- The tail of `RsiCrossRule::update_market_state` after both constraint
checks: feed `(stamp.timestamp, price.amount)` into the RSI history, and on
success retain only the `Opened` myorders and push the market state. -/
def RsiCrossRule.update_rest (r : RsiCrossRule) (ms : MarketState) :
    RsiCrossRule × Option RuleError :=
  match r.rsi_history.update ⟨ms.stamp.timestamp, ms.price.amount⟩ with
  | .error _ => (r, some .other)
  | .ok hist' =>
    ({ r with
        rsi_history := hist'
        market_states := r.market_states ++
          [{ ms with myorders := ms.myorders.filter (fun m => m.state == OrderState.opened) }] },
      none)

/-- `RsiCrossRule::update_market_state`: market constraint, then the stamp
constraint against the last accepted state, then the RSI update. -/
def RsiCrossRule.update_market_state (r : RsiCrossRule) (ms : MarketState) :
    RsiCrossRule × Option RuleError :=
  if ¬ is_correct_market_state r.market ms then (r, some .marketConstraint)
  else
    match r.market_states.getLast? with
    | some last_state =>
      if ms.stamp.timestamp ≤ last_state.stamp.timestamp then (r, some .stampConstraint)
      else r.update_rest ms
    | none => r.update_rest ms

/-! ## DataItem machinery (`indicator.rs`) and the RSI-divergence rule
(`rule/rsi_divergence.rs`).  The inner `ta::RelativeStrengthIndex` indicator
is an external crate; it is abstracted as a state type `σ` with a step
function `σ → DataItem → σ × ℚ`. -/

/-- `ta::DataItem` (external crate): an OHLCV record. -/
structure DataItem where
  open_ : ℚ
  high : ℚ
  low : ℚ
  close : ℚ
  volume : ℚ
deriving DecidableEq, Repr

/-- Modelled from the ta crate (external collaborator): `DataItem::builder()
... .build()` validates that the prices are non-negative, `low` is the
smallest, `high` the largest, and the volume non-negative. -/
def DataItem.build (o hi lo c v : ℚ) : Except Unit DataItem :=
  if 0 ≤ lo ∧ lo ≤ o ∧ lo ≤ c ∧ lo ≤ hi ∧ o ≤ hi ∧ c ≤ hi ∧ 0 ≤ v then
    .ok { open_ := o, high := hi, low := lo, close := c, volume := v }
  else .error ()

/-- `DataItemBuffer` from `indicator.rs`. -/
structure DataItemBuffer where
  interval : ℕ
  stamps : List PriceStamp
deriving DecidableEq, Repr

/-- `DataItemBuffer::next`: reject non-increasing stamps before any mutation;
same bucket (by the last stamp) appends; a new bucket drains the buffer into
a `DataItem` (open = first, close = last, low/high = min/max) and restarts
from the new stamp.  When the builder rejects the item the buffer stays
drained and the stamp is not pushed, as in the source. -/
def DataItemBuffer.next (b : DataItemBuffer) (ps : PriceStamp) :
    DataItemBuffer × Except Unit (Option DataItem) :=
  match b.stamps.getLast? with
  | some last =>
    if ps.stamp ≤ last.stamp then (b, .error ())
    else if duration_trunc b.interval last.stamp = duration_trunc b.interval ps.stamp then
      ({ b with stamps := b.stamps ++ [ps] }, .ok none)
    else
      let prices := b.stamps.map PriceStamp.price
      match DataItem.build (prices.headD 0) (prices.foldl max (prices.headD 0))
          (prices.foldl min (prices.headD 0)) (prices.getLastD 0) 0 with
      | .ok item => ({ b with stamps := [ps] }, .ok (some item))
      | .error e => ({ b with stamps := [] }, .error e)
  | none => ({ b with stamps := b.stamps ++ [ps] }, .ok none)

/-- `IndicatorBuffer` from `indicator.rs`, over the abstract indicator state
`σ`. -/
structure IndicatorBuffer (σ : Type) where
  indicator : σ
  buffer : DataItemBuffer

/-- `IndicatorBuffer::next`: on a completed `DataItem`, feed it to the inner
indicator. -/
def IndicatorBuffer.next {σ : Type} (next_output : σ → DataItem → σ × ℚ)
    (ib : IndicatorBuffer σ) (ps : PriceStamp) :
    IndicatorBuffer σ × Except Unit (Option (DataItem × ℚ)) :=
  match ib.buffer.next ps with
  | (b', .ok (some item)) =>
    let so := next_output ib.indicator item
    ({ indicator := so.1, buffer := b' }, .ok (some (item, so.2)))
  | (b', .ok none) => ({ ib with buffer := b' }, .ok none)
  | (b', .error e) => ({ ib with buffer := b' }, .error e)

/-- `IndicatorHistory` from `indicator.rs`. -/
structure IndicatorHistory (σ : Type) where
  indicator_buffer : IndicatorBuffer σ
  history : List (Option (DataItem × ℚ))

/-- `IndicatorHistory::next`: push the (possibly `None`) outcome on success;
on an error nothing is pushed but the buffer keeps its new state. -/
def IndicatorHistory.next {σ : Type} (next_output : σ → DataItem → σ × ℚ)
    (h : IndicatorHistory σ) (ps : PriceStamp) :
    IndicatorHistory σ × Except Unit (Option (DataItem × ℚ)) :=
  match IndicatorBuffer.next next_output h.indicator_buffer ps with
  | (ib', .ok opt) =>
    ({ indicator_buffer := ib', history := h.history ++ [opt] }, .ok opt)
  | (ib', .error e) => ({ h with indicator_buffer := ib' }, .error e)

/-- `RsiDivergenceParameter` (`candlestick_maxima_interval` split into its
start and end). -/
structure RsiDivergenceParameter where
  candlestick_interval_min : ℕ
  candlestick_count : ℕ
  maxima_start : ℕ
  maxima_end : ℕ
  upper_divergence_trigger : ℚ
  lower_divergence_trigger : ℚ
deriving DecidableEq, Repr

/-- `RsiDivergenceRule`, over the abstract indicator state `σ`. -/
structure RsiDivergenceRule (σ : Type) where
  market : Market
  parameter : RsiDivergenceParameter
  market_states : List MarketState
  rsi_history : IndicatorHistory σ

/-- The tail of `RsiDivergenceRule::update_market_state` after both
constraint checks. -/
def RsiDivergenceRule.update_rest {σ : Type} (next_output : σ → DataItem → σ × ℚ)
    (r : RsiDivergenceRule σ) (ms : MarketState) : RsiDivergenceRule σ × Option RuleError :=
  match IndicatorHistory.next next_output r.rsi_history ⟨ms.stamp.timestamp, ms.price.amount⟩ with
  | (hist', .error _) => ({ r with rsi_history := hist' }, some .other)
  | (hist', .ok _) =>
    ({ r with
        rsi_history := hist'
        market_states := r.market_states ++
          [{ ms with myorders := ms.myorders.filter (fun m => m.state == OrderState.opened) }] },
      none)

/-- `RsiDivergenceRule::update_market_state`: market constraint, then the
stamp constraint against the last accepted state, then the indicator
update. -/
def RsiDivergenceRule.update_market_state {σ : Type} (next_output : σ → DataItem → σ × ℚ)
    (r : RsiDivergenceRule σ) (ms : MarketState) : RsiDivergenceRule σ × Option RuleError :=
  if ¬ is_correct_market_state r.market ms then (r, some .marketConstraint)
  else
    match r.market_states.getLast? with
    | some last_state =>
      if ms.stamp.timestamp ≤ last_state.stamp.timestamp then (r, some .stampConstraint)
      else RsiDivergenceRule.update_rest next_output r ms
    | none => RsiDivergenceRule.update_rest next_output r ms

/-! ## Trade aggregation (`trade.rs`).  A `Box<dyn Rule>` is abstracted as a
state of type `σ` paired with its two dispatched operations. -/

/-- `OrderRecommendation` from `trade.rs`. -/
structure OrderRecommendation where
  side : OrderSide
  order_type : OrderType
  base_quantity : ℚ
  quote_quantity : ℚ
  price : ℚ
deriving DecidableEq, Repr

/-- `TradeParameter` from `trade.rs`. -/
structure TradeParameter where
  buy_trigger : ℚ
  sell_trigger : ℚ
  buy_quantity_ratio : ℚ
  sell_quantity_ratio : ℚ
  market_ratio : ℚ
  limit_ratio : ℚ
  buy_market_allowable_diff_ratio : ℚ
  sell_market_allowable_diff_ratio : ℚ
  buy_limit_diff_ratio : ℚ
  sell_limit_diff_ratio : ℚ
deriving DecidableEq, Repr

/-- `TradeParameter::market_limit_ratio`: normalise the two ratios by their
sum (the configured ratios are positive; a zero sum would give NaN in the
source and `0` here, unexercised by any theorem below). -/
def TradeParameter.market_limit_ratio (p : TradeParameter) : ℚ × ℚ :=
  (p.market_ratio / (p.market_ratio + p.limit_ratio),
   p.limit_ratio / (p.market_ratio + p.limit_ratio))

/-- The vtable of a `Box<dyn Rule>` as the aggregation consumes it:
`update_market_state` and `recommend().recommendation_type()`. -/
structure RuleImpl (σ : Type) where
  upd : σ → MarketState → σ × Option RuleError
  recommendation_type : σ → RecommendationType

/-- `WeightedRule` from `trade.rs`. -/
structure WeightedRule (σ : Type) where
  impl : RuleImpl σ
  rule : σ
  weight : ℚ

/-- `TradeAggregation` from `trade.rs`. -/
structure TradeAggregation (σ : Type) where
  market : Market
  parameter : TradeParameter
  weighted_rules : List (WeightedRule σ)
  last_market_state : Option MarketState

/-- `TradeAggregation::update_market_state`: forward the state to every rule,
collect the errors (an empty list is the `Ok` result), and store the supplied
state as `last_market_state` unconditionally. -/
def TradeAggregation.update_market_state {σ : Type} (t : TradeAggregation σ)
    (ms : MarketState) : TradeAggregation σ × List RuleError :=
  let updated := t.weighted_rules.map (fun wr =>
    let se := wr.impl.upd wr.rule ms
    ({ wr with rule := se.1 }, se.2))
  ({ t with weighted_rules := updated.map Prod.fst, last_market_state := some ms },
    updated.filterMap Prod.snd)

/-- The vote of one recommendation type: Buy `+1`, Sell `-1`, Pending `0`,
Neutral skipped. -/
def evaluation_of : RecommendationType → Option ℚ
  | .buy => some 1
  | .sell => some (-1)
  | .pending => some 0
  | .neutral => none

/-- The fold inside `TradeAggregation::recommend`, accumulating
`(weight_sum, sum)`. -/
def recommend_fold {σ : Type} (acc : ℚ × ℚ) (wr : WeightedRule σ) : ℚ × ℚ :=
  match evaluation_of (wr.impl.recommendation_type wr.rule) with
  | some e => (acc.1 + wr.weight, acc.2 + e * wr.weight)
  | none => acc

/-- `AggregatedRecommendation` from `trade.rs` (the boxed source
recommendations are kept as their recommendation types). -/
structure AggregatedRecommendation where
  parameter : TradeParameter
  recommendation_type : RecommendationType
  quantity_ratio : ℚ
  source_recommendations : List RecommendationType
  last_market_state : Option MarketState

/-- `TradeAggregation::recommend`.  The source divides `sum / weight_sum` in
`f64`; with the non-negative rule weights the quotient is non-finite exactly
when `weight_sum = 0` (then `sum = 0` too and the quotient is NaN), and a NaN
compares false against both triggers, landing on Pending: the non-finite mean
is modelled as `none` with the `none` branch yielding Pending. -/
def TradeAggregation.recommend {σ : Type} (t : TradeAggregation σ) :
    AggregatedRecommendation :=
  let sums := t.weighted_rules.foldl recommend_fold (0, 0)
  let mean : Option ℚ := if sums.1 = 0 then none else some (sums.2 / sums.1)
  let rtype : RecommendationType :=
    match mean with
    | some m =>
      if m > t.parameter.buy_trigger then .buy
      else if m < -t.parameter.sell_trigger then .sell
      else .pending
    | none => .pending
  let qty : ℚ :=
    match rtype, mean with
    | .buy, some m => |m| * t.parameter.buy_quantity_ratio
    | .sell, some m => |m| * t.parameter.sell_quantity_ratio
    | _, _ => 0
  { parameter := t.parameter
    recommendation_type := rtype
    quantity_ratio := qty
    source_recommendations :=
      t.weighted_rules.map (fun wr => wr.impl.recommendation_type wr.rule)
    last_market_state := t.last_market_state }

/-- `market_buy_order` from `trade.rs`. -/
def market_buy_order (p : TradeParameter) (ms : MarketState)
    (quote_quantity : ℚ) : OrderRecommendation :=
  { side := .buy
    order_type := .market
    base_quantity := quote_quantity / ms.price.amount * p.buy_market_allowable_diff_ratio
    quote_quantity := quote_quantity
    price := ms.price.amount }

/-- `market_sell_order` from `trade.rs`. -/
def market_sell_order (p : TradeParameter) (ms : MarketState)
    (base_quantity : ℚ) : OrderRecommendation :=
  { side := .sell
    order_type := .market
    base_quantity := base_quantity
    quote_quantity := base_quantity * ms.price.amount * p.sell_market_allowable_diff_ratio
    price := ms.price.amount }

/-- `limit_buy_order` from `trade.rs`. -/
def limit_buy_order (p : TradeParameter) (ms : MarketState)
    (quote_quantity : ℚ) : OrderRecommendation :=
  { side := .buy
    order_type := .limit
    base_quantity := quote_quantity / (ms.price.amount * p.buy_limit_diff_ratio)
    quote_quantity := quote_quantity
    price := ms.price.amount * p.buy_limit_diff_ratio }

/-- `limit_sell_order` from `trade.rs`. -/
def limit_sell_order (p : TradeParameter) (ms : MarketState)
    (base_quantity : ℚ) : OrderRecommendation :=
  { side := .sell
    order_type := .limit
    base_quantity := base_quantity
    quote_quantity := base_quantity * (ms.price.amount * p.sell_limit_diff_ratio)
    price := ms.price.amount * p.sell_limit_diff_ratio }

/-- `AggregatedRecommendation::recommend_orders`: without a stored market
state, or on Pending/Neutral, no orders; on Buy/Sell a market order and a
limit order split by the normalised ratios. -/
def AggregatedRecommendation.recommend_orders (a : AggregatedRecommendation)
    (base_balance quote_balance : Balance) : List OrderRecommendation :=
  match a.last_market_state with
  | none => []
  | some ms =>
    let mr := a.parameter.market_limit_ratio
    match a.recommendation_type with
    | .buy =>
      let quote_quantity :=
        quote_balance.available * a.quantity_ratio * a.parameter.buy_quantity_ratio
      [market_buy_order a.parameter ms (quote_quantity * mr.1),
       limit_buy_order a.parameter ms (quote_quantity * mr.2)]
    | .sell =>
      let base_quantity :=
        base_balance.available * a.quantity_ratio * a.parameter.sell_quantity_ratio
      [market_sell_order a.parameter ms (base_quantity * mr.1),
       limit_sell_order a.parameter ms (base_quantity * mr.2)]
    | .pending => []
    | .neutral => []

/-! ## Trade simulator (`nicehash_speculator/src/main.rs`).  The balance map
(`HashMap<IdType, Balance>` keyed by currency id) is an association list; the
recommendations a speculator produced are the simulator's input. -/

/-- `IncompleteMyorder` from `speculator.rs`: the order fields the simulator
consumes. -/
structure IncompleteMyorder where
  market_id : ℤ
  price : ℚ
  base_quantity : ℚ
  quote_quantity : ℚ
  order_type : OrderType
  side : OrderSide
deriving DecidableEq, Repr

/-- The in-memory working copy of the simulation balances. -/
abbrev Balances := List (ℤ × Balance)

/-- `current_balances.get(&currency_id)`. -/
def balances_lookup : Balances → ℤ → Option Balance
  | [], _ => none
  | (k, b) :: rest, key => if k = key then some b else balances_lookup rest key

/-- `current_balances.get_mut(&currency_id).unwrap().available += diff` (the
simulator only ever calls it on present keys; a missing key leaves the map
unchanged where the source would panic). -/
def apply_diff : Balances → ℤ → ℚ → Balances
  | [], _, _ => []
  | (k, b) :: rest, key, d =>
    if k = key then (k, { b with available := b.available + d }) :: rest
    else (k, b) :: apply_diff rest key d

/-- `base_diff` of one order: Buy receives the base quantity net of the fee,
Sell spends it. -/
def order_base_diff (fee : ℚ) (o : IncompleteMyorder) : ℚ :=
  match o.side with
  | .buy => o.base_quantity * (1 - fee)
  | .sell => -o.base_quantity

/-- `quote_diff` of one order: Buy spends the quote quantity, Sell receives
it net of the fee. -/
def order_quote_diff (fee : ℚ) (o : IncompleteMyorder) : ℚ :=
  match o.side with
  | .buy => -o.quote_quantity
  | .sell => o.quote_quantity * (1 - fee)

/-- The body of `for recommend in recommendations` in `simulate_trade`: both
diffs are applied unconditionally — the source has no negativity check. -/
def apply_recommendation (fee : ℚ) (base_id quote_id : ℤ)
    (bals : Balances) (o : IncompleteMyorder) : Balances :=
  apply_diff (apply_diff bals base_id (order_base_diff fee o))
    quote_id (order_quote_diff fee o)

/-- The body of the speculator loop in `simulate_trade`: when either balance
is missing the market is skipped with a warning, otherwise every recommended
order is applied in sequence. -/
def process_speculator (fee : ℚ) (bals : Balances)
    (entry : ℤ × ℤ × List IncompleteMyorder) : Balances :=
  match balances_lookup bals entry.1, balances_lookup bals entry.2.1 with
  | some _, some _ => entry.2.2.foldl (apply_recommendation fee entry.1 entry.2.1) bals
  | _, _ => bals

/-- `simulate_trade` from the loaded balances on: run every speculator's
recommendations over the working copy, then persist one new Balance row per
currency — fresh ids from `next_id` on, the latest main stamp id, and the
final `(available, pending)` — with no filtering of any kind. -/
def simulate_trade (fee : ℚ) (latest_stamp_id next_id : ℤ)
    (speculators : List (ℤ × ℤ × List IncompleteMyorder))
    (bals : Balances) : Balances × List Balance :=
  let final := speculators.foldl (process_speculator fee) bals
  (final,
    final.enum.map (fun e =>
      ⟨next_id + (e.1 : ℤ), e.2.1, latest_stamp_id, e.2.2.available, e.2.2.pending⟩))

/-! ## Exchange-rate graph (`server/src/exchange_graph.rs`).  The two hash
maps are association lists, vertices are currency ids (naturals). -/

/-- Lookup in the `rates` map (`HashMap<(T, T), f64>`). -/
def lookup_rate : List ((ℕ × ℕ) × ℚ) → ℕ × ℕ → Option ℚ
  | [], _ => none
  | (k, v) :: rest, key => if k = key then some v else lookup_rate rest key

/-- `HashMap::insert` in the `rates` map: replace or append. -/
def insert_rate : List ((ℕ × ℕ) × ℚ) → ℕ × ℕ → ℚ → List ((ℕ × ℕ) × ℚ)
  | [], key, v => [(key, v)]
  | (k, w) :: rest, key, v =>
    if k = key then (k, v) :: rest else (k, w) :: insert_rate rest key v

/-- `direct_relations.get(&base)`: an absent key has no neighbours. -/
def lookup_rel : List (ℕ × List ℕ) → ℕ → List ℕ
  | [], _ => []
  | (k, vs) :: rest, key => if k = key then vs else lookup_rel rest key

/-- `entry(k).and_modify(|v| v.push(t)).or_insert(vec![t])`. -/
def push_rel : List (ℕ × List ℕ) → ℕ → ℕ → List (ℕ × List ℕ)
  | [], k, t => [(k, [t])]
  | (k0, vs) :: rest, k, t =>
    if k0 = k then (k0, vs ++ [t]) :: rest else (k0, vs) :: push_rel rest k t

/-- `ExchangeGraph`. -/
structure ExchangeGraph where
  rates : List ((ℕ × ℕ) × ℚ)
  direct_relations : List (ℕ × List ℕ)
deriving DecidableEq, Repr

/-- `ExchangeGraph::from_rates`: each `(base, target, rate)` triple registers
`rate` forwards, `1/rate` backwards, and both adjacency directions. -/
def ExchangeGraph.from_rates (ts : List (ℕ × ℕ × ℚ)) : ExchangeGraph :=
  ts.foldl
    (fun g t =>
      { rates := insert_rate (insert_rate g.rates (t.1, t.2.1) t.2.2) (t.2.1, t.1) (1 / t.2.2)
        direct_relations := push_rel (push_rel g.direct_relations t.1 t.2.1) t.2.1 t.1 })
    { rates := [], direct_relations := [] }

/-- `ExchangeGraph::rate_inner`: rate 1 on the diagonal, otherwise the direct
map. -/
def ExchangeGraph.rate_inner (g : ExchangeGraph) (base target : ℕ) : Option ℚ :=
  if base = target then some 1 else lookup_rate g.rates (base, target)

/-- `ExchangeGraph::rate_between_inner`.  The Rust recursion terminates
because `appeared_ids` gains a fresh intermediate at every level; `fuel`
makes that measure explicit, and `rate_between` supplies fuel strictly larger
than any possible recursion depth, so the `fuel = 0` branch is unreachable on
the program's own calls.  The loop over the snapshot of not-yet-appeared
neighbours threads the mutated graph through its accumulator together with
the early-return value; a rate found through an intermediate is memoized into
both maps before returning. -/
def ExchangeGraph.rate_between_inner :
    ℕ → ExchangeGraph → ℕ → ℕ → List ℕ → Option ℚ × ExchangeGraph
  | 0, g, _, _, _ => (none, g)
  | fuel + 1, g, base, target, appeared =>
    match ExchangeGraph.rate_inner g base target with
    | some r => (some r, g)
    | none =>
      ((lookup_rel g.direct_relations base).filter
          (fun i => ! appeared.contains i)).foldl
        (fun acc i =>
          match acc with
          | (some r, g') => (some r, g')
          | (none, g') =>
            match lookup_rate g'.rates (base, i) with
            | none => (none, g')
            | some r1 =>
              match ExchangeGraph.rate_between_inner fuel g' i target (i :: appeared) with
              | (some r2, g'') =>
                (some (r1 * r2),
                  { rates := insert_rate g''.rates (base, target) (r1 * r2)
                    direct_relations := push_rel g''.direct_relations base target })
              | (none, g'') => (none, g''))
        (none, g)

/-- The loop body of `rate_between_inner`, named so that theorems can reason
about the fold. -/
def ExchangeGraph.search_step (fuel : ℕ) (base target : ℕ) (appeared : List ℕ)
    (acc : Option ℚ × ExchangeGraph) (i : ℕ) : Option ℚ × ExchangeGraph :=
  match acc with
  | (some r, g') => (some r, g')
  | (none, g') =>
    match lookup_rate g'.rates (base, i) with
    | none => (none, g')
    | some r1 =>
      match ExchangeGraph.rate_between_inner fuel g' i target (i :: appeared) with
      | (some r2, g'') =>
        (some (r1 * r2),
          { rates := insert_rate g''.rates (base, target) (r1 * r2)
            direct_relations := push_rel g''.direct_relations base target })
      | (none, g'') => (none, g'')

/-- Fuel strictly exceeding any possible recursion depth: one more than the
total length of all neighbour lists (each recursion level consumes a fresh
intermediate drawn from a neighbour list). -/
def ExchangeGraph.graph_fuel (g : ExchangeGraph) : ℕ :=
  ((g.direct_relations.map Prod.snd).flatten).length + 1

/-- `ExchangeGraph::rate_between`: the search from an empty `appeared_ids`
set, returning the rate and the (possibly memoized) graph. -/
def ExchangeGraph.rate_between (g : ExchangeGraph) (base target : ℕ) :
    Option ℚ × ExchangeGraph :=
  ExchangeGraph.rate_between_inner g.graph_fuel g base target []

/-- A usable directed step of the search: `i` is listed among `x`'s
neighbours and the rate map has the `(x, i)` entry. -/
def ExchangeGraph.edge (g : ExchangeGraph) (x y : ℕ) : Prop :=
  y ∈ lookup_rel g.direct_relations x ∧ (lookup_rate g.rates (x, y)).isSome

/-- An undirected step: both directed steps exist (as `from_rates` builds
them). -/
def ExchangeGraph.biedge (g : ExchangeGraph) (x y : ℕ) : Prop :=
  g.edge x y ∧ g.edge y x

/-- The rate map agrees with a valuation `v`: every stored rate is the ratio
of the valuations of its two currencies. -/
def rates_consistent (v : ℕ → ℚ) (m : List ((ℕ × ℕ) × ℚ)) : Prop :=
  ∀ p ∈ m, p.2 = v p.1.1 / v p.1.2

/-! ## END OF DEFINITIONS MARKER -/

theorem foldl_open (l : List PriceStamp) (c : Candlestick) :
    (l.foldl Candlestick.fold_price_stamp c).open_ = c.open_ := by
  induction l generalizing c with
  | nil => rfl
  | cons x l ih => simpa [Candlestick.fold_price_stamp] using ih _

theorem foldl_close (l : List PriceStamp) (c : Candlestick) :
    (l.foldl Candlestick.fold_price_stamp c).close = l.getLastD c.close := by
  induction l generalizing c with
  | nil => rfl
  | cons x l ih =>
    rw [List.foldl_cons, List.getLastD_cons]
    exact ih _

theorem foldl_high (l : List PriceStamp) (c : Candlestick)
    (hlt : ∀ q ∈ l, c.high.stamp < q.stamp)
    (hsor : List.Sorted stampLt l) :
    ((l.foldl Candlestick.fold_price_stamp c).high = c.high ∨
      (l.foldl Candlestick.fold_price_stamp c).high ∈ l) ∧
    (∀ q ∈ c.high :: l, q.price ≤ (l.foldl Candlestick.fold_price_stamp c).high.price) ∧
    (∀ q ∈ c.high :: l, q.price = (l.foldl Candlestick.fold_price_stamp c).high.price →
      (l.foldl Candlestick.fold_price_stamp c).high.stamp ≤ q.stamp) := by
  induction l generalizing c with
  | nil =>
    refine ⟨Or.inl rfl, ?_, ?_⟩ <;> intro q hq <;> simp_all
  | cons x l ih =>
    rw [List.sorted_cons] at hsor
    obtain ⟨hxl, hsor'⟩ := hsor
    rw [List.foldl_cons]
    by_cases hcx : c.high.price < x.price
    · have hhigh : (Candlestick.fold_price_stamp c x).high = x := by
        simp [Candlestick.fold_price_stamp, hcx]
      have hlt' : ∀ q ∈ l, (Candlestick.fold_price_stamp c x).high.stamp < q.stamp := by
        rw [hhigh]; exact fun q hq => hxl q hq
      obtain ⟨ihmem, ihdom, ihtie⟩ := ih (Candlestick.fold_price_stamp c x) hlt' hsor'
      rw [hhigh] at ihmem ihdom ihtie
      refine ⟨?_, ?_, ?_⟩
      · rcases ihmem with h | h
        · exact Or.inr (by rw [h]; exact List.mem_cons_self x l)
        · exact Or.inr (List.mem_cons_of_mem _ h)
      · intro q hq
        rcases List.mem_cons.mp hq with rfl | hq
        · exact le_trans (le_of_lt hcx) (ihdom x (List.mem_cons_self _ _))
        · exact ihdom q hq
      · intro q hq hqp
        rcases List.mem_cons.mp hq with rfl | hq
        · exact absurd hqp
            (ne_of_lt (lt_of_lt_of_le hcx (ihdom x (List.mem_cons_self _ _))))
        · exact ihtie q hq hqp
    · have hhigh : (Candlestick.fold_price_stamp c x).high = c.high := by
        simp [Candlestick.fold_price_stamp, hcx]
      have hlt' : ∀ q ∈ l, (Candlestick.fold_price_stamp c x).high.stamp < q.stamp := by
        rw [hhigh]; exact fun q hq => hlt q (List.mem_cons_of_mem _ hq)
      obtain ⟨ihmem, ihdom, ihtie⟩ := ih (Candlestick.fold_price_stamp c x) hlt' hsor'
      rw [hhigh] at ihmem ihdom ihtie
      have hxc : x.price ≤ c.high.price := not_lt.mp hcx
      have hcdom : c.high.price ≤ (l.foldl Candlestick.fold_price_stamp
          (Candlestick.fold_price_stamp c x)).high.price :=
        ihdom c.high (List.mem_cons_self _ _)
      refine ⟨?_, ?_, ?_⟩
      · rcases ihmem with h | h
        · exact Or.inl h
        · exact Or.inr (List.mem_cons_of_mem _ h)
      · intro q hq
        rcases List.mem_cons.mp hq with rfl | hq
        · exact hcdom
        · rcases List.mem_cons.mp hq with rfl | hq
          · exact le_trans hxc hcdom
          · exact ihdom q (List.mem_cons_of_mem _ hq)
      · intro q hq hqp
        rcases List.mem_cons.mp hq with rfl | hq
        · exact ihtie _ (List.mem_cons_self _ _) hqp
        · rcases List.mem_cons.mp hq with rfl | hq
          · have hceq := le_antisymm hcdom (hqp ▸ hxc)
            have htie := ihtie _ (List.mem_cons_self _ _) hceq
            exact le_of_lt (lt_of_le_of_lt htie (hlt _ (List.mem_cons_self _ _)))
          · exact ihtie q (List.mem_cons_of_mem _ hq) hqp

theorem foldl_low (l : List PriceStamp) (c : Candlestick)
    (hlt : ∀ q ∈ l, c.low.stamp < q.stamp)
    (hsor : List.Sorted stampLt l) :
    ((l.foldl Candlestick.fold_price_stamp c).low = c.low ∨
      (l.foldl Candlestick.fold_price_stamp c).low ∈ l) ∧
    (∀ q ∈ c.low :: l, (l.foldl Candlestick.fold_price_stamp c).low.price ≤ q.price) ∧
    (∀ q ∈ c.low :: l, q.price = (l.foldl Candlestick.fold_price_stamp c).low.price →
      (l.foldl Candlestick.fold_price_stamp c).low.stamp ≤ q.stamp) := by
  induction l generalizing c with
  | nil =>
    refine ⟨Or.inl rfl, ?_, ?_⟩ <;> intro q hq <;> simp_all
  | cons x l ih =>
    rw [List.sorted_cons] at hsor
    obtain ⟨hxl, hsor'⟩ := hsor
    rw [List.foldl_cons]
    by_cases hcx : x.price < c.low.price
    · have hlow : (Candlestick.fold_price_stamp c x).low = x := by
        simp [Candlestick.fold_price_stamp, hcx]
      have hlt' : ∀ q ∈ l, (Candlestick.fold_price_stamp c x).low.stamp < q.stamp := by
        rw [hlow]; exact fun q hq => hxl q hq
      obtain ⟨ihmem, ihdom, ihtie⟩ := ih (Candlestick.fold_price_stamp c x) hlt' hsor'
      rw [hlow] at ihmem ihdom ihtie
      refine ⟨?_, ?_, ?_⟩
      · rcases ihmem with h | h
        · exact Or.inr (by rw [h]; exact List.mem_cons_self x l)
        · exact Or.inr (List.mem_cons_of_mem _ h)
      · intro q hq
        rcases List.mem_cons.mp hq with rfl | hq
        · exact le_trans (ihdom x (List.mem_cons_self _ _)) (le_of_lt hcx)
        · exact ihdom q hq
      · intro q hq hqp
        rcases List.mem_cons.mp hq with rfl | hq
        · exact absurd hqp.symm
            (ne_of_lt (lt_of_le_of_lt (ihdom x (List.mem_cons_self _ _)) hcx))
        · exact ihtie q hq hqp
    · have hlow : (Candlestick.fold_price_stamp c x).low = c.low := by
        simp [Candlestick.fold_price_stamp, hcx]
      have hlt' : ∀ q ∈ l, (Candlestick.fold_price_stamp c x).low.stamp < q.stamp := by
        rw [hlow]; exact fun q hq => hlt q (List.mem_cons_of_mem _ hq)
      obtain ⟨ihmem, ihdom, ihtie⟩ := ih (Candlestick.fold_price_stamp c x) hlt' hsor'
      rw [hlow] at ihmem ihdom ihtie
      have hxc : c.low.price ≤ x.price := not_lt.mp hcx
      have hcdom : (l.foldl Candlestick.fold_price_stamp
          (Candlestick.fold_price_stamp c x)).low.price ≤ c.low.price :=
        ihdom c.low (List.mem_cons_self _ _)
      refine ⟨?_, ?_, ?_⟩
      · rcases ihmem with h | h
        · exact Or.inl h
        · exact Or.inr (List.mem_cons_of_mem _ h)
      · intro q hq
        rcases List.mem_cons.mp hq with rfl | hq
        · exact hcdom
        · rcases List.mem_cons.mp hq with rfl | hq
          · exact le_trans hcdom hxc
          · exact ihdom q (List.mem_cons_of_mem _ hq)
      · intro q hq hqp
        rcases List.mem_cons.mp hq with rfl | hq
        · exact ihtie _ (List.mem_cons_self _ _) hqp
        · rcases List.mem_cons.mp hq with rfl | hq
          · have hceq := le_antisymm (hqp ▸ hxc) hcdom
            have htie := ihtie _ (List.mem_cons_self _ _) hceq
            exact le_of_lt (lt_of_le_of_lt htie (hlt _ (List.mem_cons_self _ _)))
          · exact ihtie q (List.mem_cons_of_mem _ hq) hqp

/-- C5: for every non-empty, strictly timestamp-increasing sequence of
PriceStamps (the buffer of one bucket), `Candlestick::from_price_stamps` emits
a candlestick whose `open` is the earliest PriceStamp (the head), whose
`close` is the latest (the last), whose `high` is a PriceStamp of maximal
price and whose `low` is one of minimal price, with price ties broken by the
earliest instant. -/
theorem from_price_stamps_ohlc (first : PriceStamp) (rest : List PriceStamp)
    (hsor : List.Sorted stampLt (first :: rest)) :
    ∃ stick, Candlestick.from_price_stamps (first :: rest) = some stick ∧
      stick.open_ = first ∧
      stick.close = rest.getLastD first ∧
      stick.high ∈ first :: rest ∧
      (∀ q ∈ first :: rest, q.price ≤ stick.high.price) ∧
      (∀ q ∈ first :: rest, q.price = stick.high.price → stick.high.stamp ≤ q.stamp) ∧
      stick.low ∈ first :: rest ∧
      (∀ q ∈ first :: rest, stick.low.price ≤ q.price) ∧
      (∀ q ∈ first :: rest, q.price = stick.low.price → stick.low.stamp ≤ q.stamp) := by
  rw [List.sorted_cons] at hsor
  obtain ⟨hfl, hsor'⟩ := hsor
  have hlt : ∀ q ∈ rest,
      (⟨first, first, first, first⟩ : Candlestick).high.stamp < q.stamp :=
    fun q hq => hfl q hq
  have hltl : ∀ q ∈ rest,
      (⟨first, first, first, first⟩ : Candlestick).low.stamp < q.stamp :=
    fun q hq => hfl q hq
  obtain ⟨hm, hd, ht⟩ :=
    foldl_high rest (⟨first, first, first, first⟩ : Candlestick) hlt hsor'
  obtain ⟨hml, hdl, htl⟩ :=
    foldl_low rest (⟨first, first, first, first⟩ : Candlestick) hltl hsor'
  refine ⟨Candlestick.from_price_stamps1 first rest, rfl,
    foldl_open rest _, foldl_close rest _, ?_, hd, ht, ?_, hdl, htl⟩
  · rcases hm with h | h
    · exact (by rw [Candlestick.from_price_stamps1, h]; exact List.mem_cons_self _ _)
    · exact List.mem_cons_of_mem _ h
  · rcases hml with h | h
    · exact (by rw [Candlestick.from_price_stamps1, h]; exact List.mem_cons_self _ _)
    · exact List.mem_cons_of_mem _ h

/-- C5 witness: the spec scenario (prices 10, 40, 5, 20 at successive
instants) instantiated in `from_price_stamps_ohlc`. -/
theorem from_price_stamps_ohlc_witness :
    List.Sorted stampLt
      [⟨60, 10⟩, ⟨75, 40⟩, ⟨90, 5⟩, ⟨105, 20⟩] ∧
    ∃ stick, Candlestick.from_price_stamps
        [⟨60, 10⟩, ⟨75, 40⟩, ⟨90, 5⟩, ⟨105, 20⟩] = some stick ∧
      stick.open_ = ⟨60, 10⟩ ∧
      stick.close = List.getLastD [⟨75, 40⟩, ⟨90, 5⟩, ⟨105, 20⟩] ⟨60, 10⟩ ∧
      stick.high ∈ [(⟨60, 10⟩ : PriceStamp), ⟨75, 40⟩, ⟨90, 5⟩, ⟨105, 20⟩] ∧
      (∀ q ∈ [(⟨60, 10⟩ : PriceStamp), ⟨75, 40⟩, ⟨90, 5⟩, ⟨105, 20⟩],
        q.price ≤ stick.high.price) ∧
      (∀ q ∈ [(⟨60, 10⟩ : PriceStamp), ⟨75, 40⟩, ⟨90, 5⟩, ⟨105, 20⟩],
        q.price = stick.high.price → stick.high.stamp ≤ q.stamp) ∧
      stick.low ∈ [(⟨60, 10⟩ : PriceStamp), ⟨75, 40⟩, ⟨90, 5⟩, ⟨105, 20⟩] ∧
      (∀ q ∈ [(⟨60, 10⟩ : PriceStamp), ⟨75, 40⟩, ⟨90, 5⟩, ⟨105, 20⟩],
        stick.low.price ≤ q.price) ∧
      (∀ q ∈ [(⟨60, 10⟩ : PriceStamp), ⟨75, 40⟩, ⟨90, 5⟩, ⟨105, 20⟩],
        q.price = stick.low.price → stick.low.stamp ≤ q.stamp) :=
  ⟨by decide, from_price_stamps_ohlc ⟨60, 10⟩ [⟨75, 40⟩, ⟨90, 5⟩, ⟨105, 20⟩] (by decide)⟩


theorem rsi_fold_go (ds : List ℚ) (a b : ℚ) :
    (ds.map PriceChange.from_change).foldl
      (fun acc change =>
        match change with
        | .increase c => (acc.1 + c, acc.2)
        | .decrease c => (acc.1, acc.2 + c))
      (a, b) =
    (a + (ds.map (fun d => max d 0)).sum, b + (ds.map (fun d => max (-d) 0)).sum) := by
  induction ds generalizing a b with
  | nil => simp
  | cons d ds ih =>
    simp only [List.map_cons, List.foldl_cons, List.sum_cons]
    by_cases hd : d > 0
    · have h1 : max d 0 = d := max_eq_left (le_of_lt hd)
      have h2 : max (-d) 0 = 0 := max_eq_right (by linarith)
      simp only [PriceChange.from_change, if_pos hd, ih, h1, h2, Prod.mk.injEq]
      constructor <;> ring
    · have h1 : max d 0 = 0 := max_eq_right (not_lt.mp hd)
      have h2 : max (-d) 0 = -d := max_eq_left (by simpa using not_lt.mp hd)
      simp only [PriceChange.from_change, if_neg hd, ih, h1, h2, Prod.mk.injEq]
      constructor <;> ring

theorem rsi_fold_eq (ds : List ℚ) :
    rsi_fold (ds.map PriceChange.from_change) =
      ((ds.map (fun d => max d 0)).sum, (ds.map (fun d => max (-d) 0)).sum) := by
  simpa [rsi_fold] using rsi_fold_go ds 0 0

theorem from_changes_eq (ds : List ℚ) :
    Rsi.from_changes (ds.map PriceChange.from_change) =
      (if (ds.map (fun d => max d 0)).sum + (ds.map (fun d => max (-d) 0)).sum = 0 then none
       else some ((ds.map (fun d => max d 0)).sum /
         ((ds.map (fun d => max d 0)).sum + (ds.map (fun d => max (-d) 0)).sum))) := by
  simp only [Rsi.from_changes, rsi_fold_eq]

theorem calculate_rsi_of_rsi (l : List PriceStamp) :
    (RsiHistory.calculate_rsi_of l).map RsiStamp.rsi =
      specRsiFormula (l.map PriceStamp.price) := by
  cases l with
  | nil => simp [RsiHistory.calculate_rsi_of, specRsiFormula]
  | cons first rest =>
    have hlist : (((first :: rest).map PriceStamp.price).zip
          ((first :: rest).map PriceStamp.price).tail).map
            (fun pq : ℚ × ℚ => pq.2 - pq.1) =
        ((first :: rest).zip (first :: rest).tail).map
          (fun pq : PriceStamp × PriceStamp => pq.2.price - pq.1.price) := by
      rw [← List.map_tail, List.zip_map, List.map_map]
      rfl
    have hch : ((first :: rest).zip (first :: rest).tail).map
          (fun pq : PriceStamp × PriceStamp =>
            PriceChange.from_change (pq.2.price - pq.1.price)) =
        (((first :: rest).zip (first :: rest).tail).map
          (fun pq : PriceStamp × PriceStamp => pq.2.price - pq.1.price)).map
            PriceChange.from_change := by
      rw [List.map_map]
      rfl
    simp only [RsiHistory.calculate_rsi_of, specRsiFormula, hlist, hch, from_changes_eq]
    by_cases hz : ((((first :: rest).zip (first :: rest).tail).map
        (fun pq : PriceStamp × PriceStamp => pq.2.price - pq.1.price)).map
          (fun d => max d 0)).sum +
        ((((first :: rest).zip (first :: rest).tail).map
        (fun pq : PriceStamp × PriceStamp => pq.2.price - pq.1.price)).map
          (fun d => max (-d) 0)).sum = 0
    · simp only [List.tail_cons, List.map_map] at hz ⊢
      simp [hz]
    · simp only [List.tail_cons, List.map_map] at hz ⊢
      simp [hz]


/-- C3 (amended): each RSI the history computes is `U/(U+D)` over the
successive differences of the **open** prices (not the close prices) of the
last `candlestick_required_count` closed candlesticks, where `U` sums the
positive differences and `D` the magnitudes of the non-positive ones; it is
undefined when fewer sticks are closed or when `U + D = 0`. -/
theorem calculate_rsi_open_prices (h : RsiHistory) :
    (h.calculate_rsi).map RsiStamp.rsi =
      if h.candlesticks.length < h.candlestick_required_count then none
      else specRsiFormula
        (((h.candlesticks.drop
          (h.candlesticks.length - h.candlestick_required_count)).map
            Candlestick.open_).map PriceStamp.price) := by
  unfold RsiHistory.calculate_rsi calculate_rsi_aux
  by_cases hlen : h.candlesticks.length < h.candlestick_required_count
  · simp [hlen]
  · simp only [if_neg hlen]
    exact calculate_rsi_of_rsi _

/-- C3 counterexample: feed the history (span 60, required count 2) the
prices 10, 20 (first bucket), 30, 15 (second bucket) and 1 (opening the third
bucket).  Two sticks close, with open prices 10, 30 and close prices 20, 15.
The emitted RSI is `1` (rise of the open prices), while the claim's formula
over the close prices of the last 2 closed sticks yields `0`: the emitted
value does not equal the close-price formula. -/
theorem rsi_close_price_counterexample :
    ((((((RsiHistory.new 60 2).update ⟨60, 10⟩).bind (fun h => h.update ⟨90, 20⟩)).bind
      (fun h => h.update ⟨120, 30⟩)).bind (fun h => h.update ⟨150, 15⟩)).bind
      (fun h => h.update ⟨180, 1⟩)).toOption.map
        (fun h => (h.candlestick_rsis.map RsiStamp.rsi,
          specRsiFormula (h.candlesticks.map (fun st => st.close.price)))) =
      some ([1], some 0) ∧ (1 : ℚ) ≠ 0 := by
  constructor
  · norm_num [RsiHistory.new, RsiHistory.update, IncompleteRsiHistory.update,
      IncompleteRsiHistory.update_body, duration_trunc, calculate_rsi_aux,
      RsiHistory.calculate_rsi_of, Candlestick.from_price_stamps1,
      Candlestick.fold_price_stamp, Rsi.from_changes, rsi_fold,
      PriceChange.from_change, specRsiFormula, Except.bind, Except.toOption]
  · norm_num

/-- C4 counterexample: span 60, required count 2; prices at instants 60 and
120.  The second update closes one candlestick but the RSI is undefined
(fewer than 2 sticks), and nothing — not a `None` entry — is pushed:
`rsis()` has 0 entries while `candlesticks()` has 1. -/
theorem rsi_alignment_counterexample :
    ((((RsiHistory.new 60 2).update ⟨60, 10⟩).bind
      (fun h => h.update ⟨120, 20⟩)).toOption.map
        (fun h => (h.candlestick_rsis.length, h.candlesticks.length))) =
      some (0, 1) ∧ (0 : ℕ) ≠ 1 := by
  constructor
  · norm_num [RsiHistory.new, RsiHistory.update, IncompleteRsiHistory.update,
      IncompleteRsiHistory.update_body, duration_trunc, calculate_rsi_aux,
      RsiHistory.calculate_rsi_of, Candlestick.from_price_stamps1,
      Candlestick.fold_price_stamp, Rsi.from_changes, rsi_fold,
      PriceChange.from_change, Except.bind, Except.toOption]
  · norm_num

/-- C4 (amended): a successful `RsiHistory::update` either closes no
candlestick and leaves both sequences unchanged, or closes exactly one and
appends one `RsiStamp` to `rsis()` exactly when the RSI of the new stick list
is defined (at least `candlestick_required_count` closed sticks and
`U + D > 0`), appending nothing otherwise.  Consequently
`|rsis()| ≤ |candlesticks()|` is preserved (not the claimed equality). -/
theorem rsi_update_alignment (h : RsiHistory) (ps : PriceStamp) (h' : RsiHistory)
    (hup : h.update ps = .ok h') :
    ((h'.candlesticks = h.candlesticks ∧ h'.candlestick_rsis = h.candlestick_rsis) ∨
      ∃ stick, h'.candlesticks = h.candlesticks ++ [stick] ∧
        h'.candlestick_rsis = h.candlestick_rsis ++
          (calculate_rsi_aux h.candlestick_required_count
            (h.candlesticks ++ [stick])).toList) ∧
    (h.candlestick_rsis.length ≤ h.candlesticks.length →
      h'.candlestick_rsis.length ≤ h'.candlesticks.length) := by
  unfold RsiHistory.update at hup
  rcases hu : h.incomplete_history.update ps with ⟨ih, upd⟩
  rw [hu] at hup
  cases upd with
  | candlestickDetermined stick =>
    dsimp only at hup
    rcases hc : calculate_rsi_aux h.candlestick_required_count
        (h.candlesticks ++ [stick]) with _ | rsi
    · rw [hc] at hup
      dsimp only at hup
      injection hup with hup
      subst hup
      refine ⟨Or.inr ⟨stick, rfl, by simp [hc]⟩, ?_⟩
      intro hle
      simp only [List.length_append, List.length_cons]
      simpa using Nat.le_succ_of_le hle
    · rw [hc] at hup
      dsimp only at hup
      injection hup with hup
      subst hup
      refine ⟨Or.inr ⟨stick, rfl, by simp [hc]⟩, ?_⟩
      intro hle
      simp only [List.length_append, List.length_cons, List.length_nil]
      omega
  | toBeContinued =>
    dsimp only at hup
    injection hup with hup
    subst hup
    exact ⟨Or.inl ⟨rfl, rfl⟩, fun hle => hle⟩
  | err =>
    exact absurd hup (by simp)

/-- C4 witness: `rsi_update_alignment` applied to the reachable state holding
one buffered price at instant 60 (span 60, required count 2), updated with the
price stamp (120, 20): the update closes one stick and appends no RSI. -/
theorem rsi_update_alignment_witness :
    (RsiHistory.update
        ⟨60, 2, [], [], ⟨60, [⟨60, 10⟩]⟩, false⟩ ⟨120, 20⟩ =
      .ok ⟨60, 2, [⟨⟨60, 10⟩, ⟨60, 10⟩, ⟨60, 10⟩, ⟨60, 10⟩⟩], [],
        ⟨60, [⟨120, 20⟩]⟩, false⟩) ∧
    ((((⟨60, 2, [⟨⟨60, 10⟩, ⟨60, 10⟩, ⟨60, 10⟩, ⟨60, 10⟩⟩], [],
        ⟨60, [⟨120, 20⟩]⟩, false⟩ : RsiHistory).candlesticks =
          (⟨60, 2, [], [], ⟨60, [⟨60, 10⟩]⟩, false⟩ : RsiHistory).candlesticks ∧
        (⟨60, 2, [⟨⟨60, 10⟩, ⟨60, 10⟩, ⟨60, 10⟩, ⟨60, 10⟩⟩], [],
          ⟨60, [⟨120, 20⟩]⟩, false⟩ : RsiHistory).candlestick_rsis =
          (⟨60, 2, [], [], ⟨60, [⟨60, 10⟩]⟩, false⟩ : RsiHistory).candlestick_rsis) ∨
      ∃ stick, (⟨60, 2, [⟨⟨60, 10⟩, ⟨60, 10⟩, ⟨60, 10⟩, ⟨60, 10⟩⟩], [],
          ⟨60, [⟨120, 20⟩]⟩, false⟩ : RsiHistory).candlesticks =
          (⟨60, 2, [], [], ⟨60, [⟨60, 10⟩]⟩, false⟩ : RsiHistory).candlesticks ++ [stick] ∧
        (⟨60, 2, [⟨⟨60, 10⟩, ⟨60, 10⟩, ⟨60, 10⟩, ⟨60, 10⟩⟩], [],
          ⟨60, [⟨120, 20⟩]⟩, false⟩ : RsiHistory).candlestick_rsis =
          (⟨60, 2, [], [], ⟨60, [⟨60, 10⟩]⟩, false⟩ : RsiHistory).candlestick_rsis ++
            (calculate_rsi_aux
              (⟨60, 2, [], [], ⟨60, [⟨60, 10⟩]⟩, false⟩ : RsiHistory).candlestick_required_count
              ((⟨60, 2, [], [], ⟨60, [⟨60, 10⟩]⟩, false⟩ : RsiHistory).candlesticks ++
                [stick])).toList) ∧
    ((⟨60, 2, [], [], ⟨60, [⟨60, 10⟩]⟩, false⟩ : RsiHistory).candlestick_rsis.length ≤
        (⟨60, 2, [], [], ⟨60, [⟨60, 10⟩]⟩, false⟩ : RsiHistory).candlesticks.length →
      (⟨60, 2, [⟨⟨60, 10⟩, ⟨60, 10⟩, ⟨60, 10⟩, ⟨60, 10⟩⟩], [],
        ⟨60, [⟨120, 20⟩]⟩, false⟩ : RsiHistory).candlestick_rsis.length ≤
      (⟨60, 2, [⟨⟨60, 10⟩, ⟨60, 10⟩, ⟨60, 10⟩, ⟨60, 10⟩⟩], [],
        ⟨60, [⟨120, 20⟩]⟩, false⟩ : RsiHistory).candlesticks.length)) :=
  ⟨by norm_num [RsiHistory.update, IncompleteRsiHistory.update,
      IncompleteRsiHistory.update_body, duration_trunc, calculate_rsi_aux,
      RsiHistory.calculate_rsi_of, Candlestick.from_price_stamps1,
      Candlestick.fold_price_stamp],
    rsi_update_alignment ⟨60, 2, [], [], ⟨60, [⟨60, 10⟩]⟩, false⟩ ⟨120, 20⟩
      ⟨60, 2, [⟨⟨60, 10⟩, ⟨60, 10⟩, ⟨60, 10⟩, ⟨60, 10⟩⟩], [], ⟨60, [⟨120, 20⟩]⟩, false⟩
      (by norm_num [RsiHistory.update, IncompleteRsiHistory.update,
        IncompleteRsiHistory.update_body, duration_trunc, calculate_rsi_aux,
        RsiHistory.calculate_rsi_of, Candlestick.from_price_stamps1,
        Candlestick.fold_price_stamp])⟩


/-- C2 counterexample: parameters `(B, S, UP, LP) = (30, 70, 80, 20)` percent,
previous RSI 25 percent, current 85 percent, candlestick just closed.  The
claim says the `curr > UP` check runs first and forces `Pending`; the code
matches the Buy-cross arm first (`prev < B ∧ curr ≥ B` holds) and returns
`Buy`. -/
theorem rsi_cross_pending_counterexample :
    rsi_cross_recommend ⟨60, 14, 30/100, 70/100, 80/100, 20/100⟩
      [some (25/100), some (85/100)] true = .buy ∧
    RsiCrossKind.buy ≠ RsiCrossKind.pending := by
  refine ⟨?_, by decide⟩
  norm_num [rsi_cross_recommend, last_two, rsi_cross_evaluate]

/-- C2 (amended): when a candlestick has just closed and the last two history
entries hold defined RSI values `prev, curr`, a current value beyond a pending
trigger (`curr > UP` or `curr < LP`) yields `Pending` only provided neither
the Buy-cross (`prev < B ∧ curr ≥ B`) nor the Sell-cross
(`prev > S ∧ curr ≤ S`) condition holds, because the cross arms are matched
before the Pending arms. -/
theorem rsi_cross_pending_blocked_by_crosses (p : RsiCrossParameter)
    (rsis : List (Option ℚ)) (prev current : ℚ)
    (hlast : last_two rsis = some (some prev, some current))
    (hnobuy : ¬ (prev < p.buy ∧ current ≥ p.buy))
    (hnosell : ¬ (prev > p.sell ∧ current ≤ p.sell))
    (hpend : current > p.upper_pending ∨ current < p.lower_pending) :
    rsi_cross_recommend p rsis true = .pending := by
  unfold rsi_cross_recommend
  rw [hlast]
  simp only [if_true]
  simp only [rsi_cross_evaluate]
  rw [if_neg hnobuy, if_neg hnosell]
  rcases hpend with hup | hlow
  · rw [if_pos hup]
  · by_cases hup : current > p.upper_pending
    · rw [if_pos hup]
    · rw [if_neg hup, if_pos hlow]

/-- C2 witness: `(B, S, UP, LP) = (30, 70, 80, 20)` percent, previous RSI 50
percent (no cross), current 85 percent, just closed: `Pending`. -/
theorem rsi_cross_pending_blocked_witness :
    last_two [some ((50 : ℚ)/100), some (85/100)] =
      some (some ((50 : ℚ)/100), some (85/100)) ∧
    ¬ ((50 : ℚ)/100 < (⟨60, 14, 30/100, 70/100, 80/100, 20/100⟩ :
        RsiCrossParameter).buy ∧
      (85 : ℚ)/100 ≥ (⟨60, 14, 30/100, 70/100, 80/100, 20/100⟩ :
        RsiCrossParameter).buy) ∧
    ((85 : ℚ)/100 > (⟨60, 14, 30/100, 70/100, 80/100, 20/100⟩ :
        RsiCrossParameter).upper_pending ∨
      (85 : ℚ)/100 < (⟨60, 14, 30/100, 70/100, 80/100, 20/100⟩ :
        RsiCrossParameter).lower_pending) ∧
    rsi_cross_recommend ⟨60, 14, 30/100, 70/100, 80/100, 20/100⟩
      [some (50/100), some (85/100)] true = .pending :=
  ⟨rfl, by norm_num, by norm_num,
    rsi_cross_pending_blocked_by_crosses _ _ _ _ rfl (by norm_num) (by norm_num)
      (by norm_num)⟩

/-- C7 counterexample: the fixed rule keeps no state and never checks stamps.
Two consecutive `update_market_state` calls with the identical stamp both
return `Ok` — the second does not return `StampConstraint`. -/
theorem fixed_rule_stamp_counterexample :
    FixedRule.update_market_state ⟨⟨1, 2, 3⟩, .buy⟩
      ⟨⟨7, 100⟩, ⟨1, 1, 7, 10⟩, [], []⟩ = (⟨⟨1, 2, 3⟩, .buy⟩, none) ∧
    (FixedRule.update_market_state
      (FixedRule.update_market_state ⟨⟨1, 2, 3⟩, .buy⟩
        ⟨⟨7, 100⟩, ⟨1, 1, 7, 10⟩, [], []⟩).1
      ⟨⟨7, 100⟩, ⟨1, 1, 7, 10⟩, [], []⟩).2 = none ∧
    (none : Option RuleError) ≠ some RuleError.stampConstraint := by
  refine ⟨?_, ?_, by simp⟩ <;>
    simp [FixedRule.update_market_state, is_correct_market_state]

/-- C7 (amended): the stateful rules enforce the stamp constraint — for the
RSI-cross and RSI-divergence rules, an update whose stamp is not strictly
above the last accepted state's returns `StampConstraint` and leaves the rule
state unchanged — while the fixed rule retains no state, performs no stamp
check and accepts any well-marketed state with `Ok`. -/
theorem rule_stamp_constraint_behaviour :
    (∀ (rc : RsiCrossRule) (ms last_state : MarketState),
      rc.market_states.getLast? = some last_state →
      ms.stamp.timestamp ≤ last_state.stamp.timestamp →
      is_correct_market_state rc.market ms = true →
      rc.update_market_state ms = (rc, some RuleError.stampConstraint)) ∧
    (∀ (σ : Type) (next_output : σ → DataItem → σ × ℚ) (rd : RsiDivergenceRule σ)
        (ms last_state : MarketState),
      rd.market_states.getLast? = some last_state →
      ms.stamp.timestamp ≤ last_state.stamp.timestamp →
      is_correct_market_state rd.market ms = true →
      RsiDivergenceRule.update_market_state next_output rd ms =
        (rd, some RuleError.stampConstraint)) ∧
    (∀ (rf : FixedRule) (ms : MarketState),
      is_correct_market_state rf.market ms = true →
      rf.update_market_state ms = (rf, none)) := by
  refine ⟨?_, ?_, ?_⟩
  · intro rc ms last_state hlast hle hok
    simp only [RsiCrossRule.update_market_state, hok, hlast]
    simp [hle]
  · intro σ next_output rd ms last_state hlast hle hok
    simp only [RsiDivergenceRule.update_market_state, hok, hlast]
    simp [hle]
  · intro rf ms hok
    simp [FixedRule.update_market_state, hok]

/-- C7 witness: concrete instantiations — an RSI-cross rule and an
RSI-divergence rule (indicator state `Unit`) each holding one accepted state
at instant 100, updated with a state at the same instant, return
`StampConstraint` unchanged; the fixed rule accepts the same state. -/
theorem rule_stamp_constraint_behaviour_witness :
    RsiCrossRule.update_market_state
      ⟨⟨1, 2, 3⟩, ⟨60, 14, 30/100, 70/100, 80/100, 20/100⟩,
        [⟨⟨8, 100⟩, ⟨1, 1, 8, 10⟩, [], []⟩], RsiHistory.new 60 14⟩
      ⟨⟨9, 100⟩, ⟨2, 1, 9, 10⟩, [], []⟩ =
      (⟨⟨1, 2, 3⟩, ⟨60, 14, 30/100, 70/100, 80/100, 20/100⟩,
        [⟨⟨8, 100⟩, ⟨1, 1, 8, 10⟩, [], []⟩], RsiHistory.new 60 14⟩,
        some RuleError.stampConstraint) ∧
    RsiDivergenceRule.update_market_state (fun (s : Unit) (_ : DataItem) => (s, (0 : ℚ)))
      ⟨⟨1, 2, 3⟩, ⟨60, 14, 1, 5, 80/100, 20/100⟩,
        [⟨⟨8, 100⟩, ⟨1, 1, 8, 10⟩, [], []⟩], ⟨⟨(), ⟨60, []⟩⟩, []⟩⟩
      ⟨⟨9, 100⟩, ⟨2, 1, 9, 10⟩, [], []⟩ =
      (⟨⟨1, 2, 3⟩, ⟨60, 14, 1, 5, 80/100, 20/100⟩,
        [⟨⟨8, 100⟩, ⟨1, 1, 8, 10⟩, [], []⟩], ⟨⟨(), ⟨60, []⟩⟩, []⟩⟩,
        some RuleError.stampConstraint) ∧
    FixedRule.update_market_state ⟨⟨1, 2, 3⟩, .buy⟩
      ⟨⟨9, 100⟩, ⟨2, 1, 9, 10⟩, [], []⟩ = (⟨⟨1, 2, 3⟩, .buy⟩, none) :=
  ⟨rule_stamp_constraint_behaviour.1
      ⟨⟨1, 2, 3⟩, ⟨60, 14, 30/100, 70/100, 80/100, 20/100⟩,
        [⟨⟨8, 100⟩, ⟨1, 1, 8, 10⟩, [], []⟩], RsiHistory.new 60 14⟩
      ⟨⟨9, 100⟩, ⟨2, 1, 9, 10⟩, [], []⟩ ⟨⟨8, 100⟩, ⟨1, 1, 8, 10⟩, [], []⟩
      rfl (by norm_num) (by rfl),
    rule_stamp_constraint_behaviour.2.1 Unit
      (fun (s : Unit) (_ : DataItem) => (s, (0 : ℚ)))
      ⟨⟨1, 2, 3⟩, ⟨60, 14, 1, 5, 80/100, 20/100⟩,
        [⟨⟨8, 100⟩, ⟨1, 1, 8, 10⟩, [], []⟩], ⟨⟨(), ⟨60, []⟩⟩, []⟩⟩
      ⟨⟨9, 100⟩, ⟨2, 1, 9, 10⟩, [], []⟩ ⟨⟨8, 100⟩, ⟨1, 1, 8, 10⟩, [], []⟩
      rfl (by norm_num) (by rfl),
    rule_stamp_constraint_behaviour.2.2 ⟨⟨1, 2, 3⟩, .buy⟩
      ⟨⟨9, 100⟩, ⟨2, 1, 9, 10⟩, [], []⟩ (by rfl)⟩


theorem recommend_fold_neutral {σ : Type} (l : List (WeightedRule σ))
    (h : ∀ wr ∈ l, wr.impl.recommendation_type wr.rule = RecommendationType.neutral) :
    ∀ acc, l.foldl recommend_fold acc = acc := by
  induction l with
  | nil => intro acc; rfl
  | cons wr l ih =>
    intro acc
    rw [List.foldl_cons]
    have hw := h wr (List.mem_cons_self _ _)
    have hstep : recommend_fold acc wr = acc := by
      simp [recommend_fold, hw, evaluation_of]
    rw [hstep]
    exact ih (fun w hwmem => h w (List.mem_cons_of_mem _ hwmem)) acc

/-- C6: when every rule of the aggregation recommends Neutral, the
contributing weight sum is 0, the mean is undefined (NaN in the source) and
`recommend()` yields a Pending recommendation with quantity factor 0, whose
`recommend_orders` is empty for all balances. -/
theorem aggregation_all_neutral {σ : Type} (t : TradeAggregation σ)
    (hneutral : ∀ wr ∈ t.weighted_rules,
      wr.impl.recommendation_type wr.rule = RecommendationType.neutral) :
    (t.recommend).recommendation_type = .pending ∧
    (t.recommend).quantity_ratio = 0 ∧
    ∀ base_balance quote_balance,
      (t.recommend).recommend_orders base_balance quote_balance = [] := by
  have hsum := recommend_fold_neutral t.weighted_rules hneutral (0, 0)
  have hrt : (t.recommend).recommendation_type = .pending := by
    simp only [TradeAggregation.recommend]
    rw [hsum]
    norm_num
  have hqty : (t.recommend).quantity_ratio = 0 := by
    simp only [TradeAggregation.recommend]
    rw [hsum]
    norm_num
  refine ⟨hrt, hqty, ?_⟩
  intro bb qb
  unfold AggregatedRecommendation.recommend_orders
  rcases ho : (t.recommend).last_market_state with _ | ms
  · rfl
  · simp [hrt]

/-- C6 witness: two Neutral rules (weights 2 and 1) on a concrete market. -/
theorem aggregation_all_neutral_witness :
    ((⟨⟨1, 2, 3⟩, ⟨1/4, 1/4, 1/2, 1/2, 1/2, 1/2, 1, 1, 21/20, 19/20⟩,
        [⟨⟨fun s _ => (s, none), fun _ => .neutral⟩, (), 2⟩,
         ⟨⟨fun s _ => (s, none), fun _ => .neutral⟩, (), 1⟩],
        some ⟨⟨5, 100⟩, ⟨1, 1, 5, 10⟩, [], []⟩⟩ :
      TradeAggregation Unit).recommend).recommendation_type = .pending ∧
    ((⟨⟨1, 2, 3⟩, ⟨1/4, 1/4, 1/2, 1/2, 1/2, 1/2, 1, 1, 21/20, 19/20⟩,
        [⟨⟨fun s _ => (s, none), fun _ => .neutral⟩, (), 2⟩,
         ⟨⟨fun s _ => (s, none), fun _ => .neutral⟩, (), 1⟩],
        some ⟨⟨5, 100⟩, ⟨1, 1, 5, 10⟩, [], []⟩⟩ :
      TradeAggregation Unit).recommend).quantity_ratio = 0 ∧
    ((⟨⟨1, 2, 3⟩, ⟨1/4, 1/4, 1/2, 1/2, 1/2, 1/2, 1, 1, 21/20, 19/20⟩,
        [⟨⟨fun s _ => (s, none), fun _ => .neutral⟩, (), 2⟩,
         ⟨⟨fun s _ => (s, none), fun _ => .neutral⟩, (), 1⟩],
        some ⟨⟨5, 100⟩, ⟨1, 1, 5, 10⟩, [], []⟩⟩ :
      TradeAggregation Unit).recommend).recommend_orders
        ⟨1, 2, 5, 100, 0⟩ ⟨2, 3, 5, 1000, 0⟩ = [] := by
  have hneutral : ∀ wr ∈ ([⟨⟨fun s _ => (s, none), fun _ => .neutral⟩, (), 2⟩,
      ⟨⟨fun s _ => (s, none), fun _ => .neutral⟩, (), 1⟩] :
        List (WeightedRule Unit)),
      wr.impl.recommendation_type wr.rule = RecommendationType.neutral := by
    intro wr hwr
    rcases List.mem_cons.mp hwr with rfl | hwr
    · rfl
    · rcases List.mem_cons.mp hwr with rfl | hwr
      · rfl
      · cases hwr
  exact ⟨(aggregation_all_neutral _ hneutral).1, (aggregation_all_neutral _ hneutral).2.1,
    (aggregation_all_neutral _ hneutral).2.2 ⟨1, 2, 5, 100, 0⟩ ⟨2, 3, 5, 1000, 0⟩⟩

/-- C10: `TradeAggregation::update_market_state` stores the supplied market
state as `last_market_state` even when it returns `Err` (a non-empty error
list), so a subsequent `recommend_orders` prices its orders — the market
order at the spot price, the limit order at the spot price scaled by the
limit diff ratio — from the most recently supplied state, not the most
recently accepted one. -/
theorem aggregation_stores_rejected_state {σ : Type} (t : TradeAggregation σ)
    (ms : MarketState) (herr : (t.update_market_state ms).2 ≠ []) :
    ((t.update_market_state ms).1).last_market_state = some ms ∧
    (((t.update_market_state ms).1).recommend).last_market_state = some ms ∧
    (∀ bb qb, (((t.update_market_state ms).1).recommend).recommendation_type =
        RecommendationType.buy →
      ((((t.update_market_state ms).1).recommend).recommend_orders bb qb).map
        OrderRecommendation.price =
        [ms.price.amount, ms.price.amount * t.parameter.buy_limit_diff_ratio]) := by
  have hlast : ((t.update_market_state ms).1).last_market_state = some ms := rfl
  have hrecl : (((t.update_market_state ms).1).recommend).last_market_state =
      some ms := hlast
  refine ⟨hlast, hrecl, ?_⟩
  intro bb qb hbuy
  unfold AggregatedRecommendation.recommend_orders
  rw [hrecl, hbuy]
  rfl

/-- C10 witness: one rule that rejects every state (`StampConstraint`) but
votes Buy with weight 1; `buy_trigger = 1/2 < 1 = mean`, so the
recommendation is Buy and the two orders are priced from the supplied state's
price 10. -/
theorem aggregation_stores_rejected_state_witness :
    ((⟨⟨1, 2, 3⟩, ⟨1/2, 1/2, 1, 1, 1/2, 1/2, 1, 1, 21/20, 19/20⟩,
        [⟨⟨fun s _ => (s, some .stampConstraint), fun _ => .buy⟩, (), 1⟩], none⟩ :
      TradeAggregation Unit).update_market_state
        ⟨⟨5, 100⟩, ⟨1, 1, 5, 10⟩, [], []⟩).1.last_market_state =
      some ⟨⟨5, 100⟩, ⟨1, 1, 5, 10⟩, [], []⟩ ∧
    ((⟨⟨1, 2, 3⟩, ⟨1/2, 1/2, 1, 1, 1/2, 1/2, 1, 1, 21/20, 19/20⟩,
        [⟨⟨fun s _ => (s, some .stampConstraint), fun _ => .buy⟩, (), 1⟩], none⟩ :
      TradeAggregation Unit).update_market_state
        ⟨⟨5, 100⟩, ⟨1, 1, 5, 10⟩, [], []⟩).1.recommend.last_market_state =
      some ⟨⟨5, 100⟩, ⟨1, 1, 5, 10⟩, [], []⟩ ∧
    (((⟨⟨1, 2, 3⟩, ⟨1/2, 1/2, 1, 1, 1/2, 1/2, 1, 1, 21/20, 19/20⟩,
        [⟨⟨fun s _ => (s, some .stampConstraint), fun _ => .buy⟩, (), 1⟩], none⟩ :
      TradeAggregation Unit).update_market_state
        ⟨⟨5, 100⟩, ⟨1, 1, 5, 10⟩, [], []⟩).1.recommend.recommend_orders
          ⟨1, 2, 5, 100, 0⟩ ⟨2, 3, 5, 1000, 0⟩).map OrderRecommendation.price =
      [(10 : ℚ), 10 * (21/20)] := by
  have happ := aggregation_stores_rejected_state
    (⟨⟨1, 2, 3⟩, ⟨1/2, 1/2, 1, 1, 1/2, 1/2, 1, 1, 21/20, 19/20⟩,
        [⟨⟨fun s _ => (s, some .stampConstraint), fun _ => .buy⟩, (), 1⟩], none⟩ :
      TradeAggregation Unit)
    ⟨⟨5, 100⟩, ⟨1, 1, 5, 10⟩, [], []⟩
    (by simp [TradeAggregation.update_market_state])
  refine ⟨happ.1, happ.2.1, ?_⟩
  have h3 := happ.2.2 ⟨1, 2, 5, 100, 0⟩ ⟨2, 3, 5, 1000, 0⟩
    (by norm_num [TradeAggregation.update_market_state, TradeAggregation.recommend,
      recommend_fold, evaluation_of])
  simpa using h3


theorem lookup_apply_diff_same (bals : Balances) (key : ℤ) (d : ℚ) (b : Balance)
    (hb : balances_lookup bals key = some b) :
    balances_lookup (apply_diff bals key d) key =
      some { b with available := b.available + d } := by
  induction bals with
  | nil => simp [balances_lookup] at hb
  | cons kb rest ih =>
    rcases kb with ⟨k, bb⟩
    by_cases hk : k = key
    · subst hk
      simp [balances_lookup, apply_diff] at hb ⊢
      simp [hb]
    · simp only [balances_lookup, apply_diff, if_neg hk] at hb ⊢
      exact ih hb

theorem lookup_apply_diff_other (bals : Balances) (key other : ℤ) (d : ℚ)
    (hne : other ≠ key) :
    balances_lookup (apply_diff bals key d) other = balances_lookup bals other := by
  induction bals with
  | nil => rfl
  | cons kb rest ih =>
    rcases kb with ⟨k, bb⟩
    by_cases hk : k = key
    · subst hk
      simp [balances_lookup, apply_diff, if_neg (Ne.symm hne)]
    · by_cases ho : k = other
      · subst ho
        simp [balances_lookup, apply_diff, if_neg hk]
      · simp only [balances_lookup, apply_diff, if_neg hk, if_neg ho]
        exact ih

theorem apply_orders_lookup (fee : ℚ) (base_id quote_id : ℤ)
    (hne : base_id ≠ quote_id) :
    ∀ (orders : List IncompleteMyorder) (bals : Balances) (b0 q0 : Balance),
      balances_lookup bals base_id = some b0 →
      balances_lookup bals quote_id = some q0 →
      ∃ b1 q1,
        balances_lookup
          (orders.foldl (apply_recommendation fee base_id quote_id) bals) base_id =
            some b1 ∧
        balances_lookup
          (orders.foldl (apply_recommendation fee base_id quote_id) bals) quote_id =
            some q1 ∧
        b1.available = b0.available + (orders.map (order_base_diff fee)).sum ∧
        q1.available = q0.available + (orders.map (order_quote_diff fee)).sum := by
  intro orders
  induction orders with
  | nil =>
    intro bals b0 q0 hb hq
    exact ⟨b0, q0, hb, hq, by simp, by simp⟩
  | cons o rest ih =>
    intro bals b0 q0 hb hq
    rw [List.foldl_cons]
    have hb1 : balances_lookup (apply_recommendation fee base_id quote_id bals o)
        base_id = some { b0 with available := b0.available + order_base_diff fee o } := by
      unfold apply_recommendation
      rw [lookup_apply_diff_other _ _ _ _ hne]
      exact lookup_apply_diff_same _ _ _ _ hb
    have hq1 : balances_lookup (apply_recommendation fee base_id quote_id bals o)
        quote_id = some { q0 with available := q0.available + order_quote_diff fee o } := by
      unfold apply_recommendation
      have hq' : balances_lookup (apply_diff bals base_id (order_base_diff fee o))
          quote_id = some q0 := by
        rw [lookup_apply_diff_other _ _ _ _ (Ne.symm hne)]
        exact hq
      exact lookup_apply_diff_same _ _ _ _ hq'
    obtain ⟨b1, q1, h1, h2, h3, h4⟩ := ih _ _ _ hb1 hq1
    refine ⟨b1, q1, h1, h2, ?_, ?_⟩
    · rw [h3]
      simp only [List.map_cons, List.sum_cons]
      ring
    · rw [h4]
      simp only [List.map_cons, List.sum_cons]
      ring

/-- C1 counterexample: fee 0, one market (base currency 1, quote currency 2),
starting balances 0 and 100, and a single recommended Buy order with
`quote_quantity = 200`.  Applying the order drives the quote available to
`-100`; `simulate_trade` applies it anyway and persists a Balance row with
`available = -100 < 0`. -/
theorem simulator_negative_balance_counterexample :
    ((simulate_trade 0 9 1 [(1, 2, [⟨1, 100, 1, 200, .market, .buy⟩])]
        [(1, ⟨1, 1, 8, 0, 0⟩), (2, ⟨2, 2, 8, 100, 0⟩)]).2.map Balance.available) =
      [1, -100] ∧ ¬ ((0 : ℚ) ≤ -100) := by
  constructor
  · norm_num [simulate_trade, process_speculator, apply_recommendation, apply_diff,
      balances_lookup, order_base_diff, order_quote_diff, List.enum, List.enumFrom]
  · norm_num

/-- C1 (amended): `simulate_trade` performs no negativity check.  For a
market whose base and quote currencies are both present in the working copy,
every recommended order's signed diffs are applied unconditionally — the
final available of the base (resp. quote) currency is the starting value
plus the sum of all the orders' base (resp. quote) diffs, negative or not —
and one Balance row per currency is persisted with exactly the final
`(available, pending)`. -/
theorem simulate_trade_applies_all_orders (fee : ℚ) (latest_stamp_id next_id : ℤ)
    (base_id quote_id : ℤ) (orders : List IncompleteMyorder) (bals : Balances)
    (b0 q0 : Balance)
    (hb : balances_lookup bals base_id = some b0)
    (hq : balances_lookup bals quote_id = some q0)
    (hne : base_id ≠ quote_id) :
    (∃ b1, balances_lookup
        (simulate_trade fee latest_stamp_id next_id
          [(base_id, quote_id, orders)] bals).1 base_id = some b1 ∧
      b1.available = b0.available + (orders.map (order_base_diff fee)).sum) ∧
    (∃ q1, balances_lookup
        (simulate_trade fee latest_stamp_id next_id
          [(base_id, quote_id, orders)] bals).1 quote_id = some q1 ∧
      q1.available = q0.available + (orders.map (order_quote_diff fee)).sum) ∧
    (simulate_trade fee latest_stamp_id next_id
        [(base_id, quote_id, orders)] bals).2 =
      (simulate_trade fee latest_stamp_id next_id
        [(base_id, quote_id, orders)] bals).1.enum.map (fun e =>
          ⟨next_id + (e.1 : ℤ), e.2.1, latest_stamp_id,
            e.2.2.available, e.2.2.pending⟩) := by
  have hfold : (simulate_trade fee latest_stamp_id next_id
      [(base_id, quote_id, orders)] bals).1 =
      orders.foldl (apply_recommendation fee base_id quote_id) bals := by
    simp only [simulate_trade, List.foldl_cons, List.foldl_nil, process_speculator,
      hb, hq]
  obtain ⟨b1, q1, h1, h2, h3, h4⟩ :=
    apply_orders_lookup fee base_id quote_id hne orders bals b0 q0 hb hq
  refine ⟨⟨b1, ?_, h3⟩, ⟨q1, ?_, h4⟩, rfl⟩
  · rw [hfold]; exact h1
  · rw [hfold]; exact h2

/-- C1 witness: the spec's buy-accounting scenario — fee `1/1000`, base
currency 1 with available 0, quote currency 2 with available 1000, one Buy
order with `base_quantity = 5`, `quote_quantity = 500`: final base available
`5 * 999/1000 = 4995/1000`, final quote available `500`. -/
theorem simulate_trade_applies_all_orders_witness :
    (∃ b1, balances_lookup
        (simulate_trade (1/1000) 9 1
          [(1, 2, [⟨1, 100, 5, 500, .market, .buy⟩])]
          [(1, ⟨1, 1, 8, 0, 0⟩), (2, ⟨2, 2, 8, 1000, 0⟩)]).1 1 = some b1 ∧
      b1.available = (0 : ℚ) +
        (([⟨1, 100, 5, 500, .market, .buy⟩] :
          List IncompleteMyorder).map (order_base_diff (1/1000))).sum) ∧
    (∃ q1, balances_lookup
        (simulate_trade (1/1000) 9 1
          [(1, 2, [⟨1, 100, 5, 500, .market, .buy⟩])]
          [(1, ⟨1, 1, 8, 0, 0⟩), (2, ⟨2, 2, 8, 1000, 0⟩)]).1 2 = some q1 ∧
      q1.available = (1000 : ℚ) +
        (([⟨1, 100, 5, 500, .market, .buy⟩] :
          List IncompleteMyorder).map (order_quote_diff (1/1000))).sum) ∧
    (simulate_trade (1/1000) 9 1
        [(1, 2, [⟨1, 100, 5, 500, .market, .buy⟩])]
        [(1, ⟨1, 1, 8, 0, 0⟩), (2, ⟨2, 2, 8, 1000, 0⟩)]).2 =
      (simulate_trade (1/1000) 9 1
        [(1, 2, [⟨1, 100, 5, 500, .market, .buy⟩])]
        [(1, ⟨1, 1, 8, 0, 0⟩), (2, ⟨2, 2, 8, 1000, 0⟩)]).1.enum.map (fun e =>
          ⟨1 + (e.1 : ℤ), e.2.1, 9, e.2.2.available, e.2.2.pending⟩) :=
  simulate_trade_applies_all_orders (1/1000) 9 1 1 2
    [⟨1, 100, 5, 500, .market, .buy⟩]
    [(1, ⟨1, 1, 8, 0, 0⟩), (2, ⟨2, 2, 8, 1000, 0⟩)]
    ⟨1, 1, 8, 0, 0⟩ ⟨2, 2, 8, 1000, 0⟩
    (by norm_num [balances_lookup]) (by norm_num [balances_lookup]) (by norm_num)


theorem rate_between_inner_succ (fuel : ℕ) (g : ExchangeGraph) (base target : ℕ)
    (appeared : List ℕ) :
    ExchangeGraph.rate_between_inner (fuel + 1) g base target appeared =
      match ExchangeGraph.rate_inner g base target with
      | some r => (some r, g)
      | none =>
        ((lookup_rel g.direct_relations base).filter
            (fun i => ! appeared.contains i)).foldl
          (ExchangeGraph.search_step fuel base target appeared) (none, g) := rfl

theorem search_fold_some (fuel : ℕ) (base target : ℕ) (appeared : List ℕ)
    (ns : List ℕ) (r : ℚ) (g : ExchangeGraph) :
    ns.foldl (ExchangeGraph.search_step fuel base target appeared) (some r, g) =
      (some r, g) := by
  induction ns with
  | nil => rfl
  | cons i ns ih => simpa [ExchangeGraph.search_step] using ih

theorem lookup_insert_rate (m : List ((ℕ × ℕ) × ℚ)) (k : ℕ × ℕ) (v : ℚ)
    (key : ℕ × ℕ) :
    lookup_rate (insert_rate m k v) key =
      if k = key then some v else lookup_rate m key := by
  induction m with
  | nil => rfl
  | cons p m ih =>
    rcases p with ⟨k0, w⟩
    by_cases h0 : k0 = k
    · subst h0
      by_cases h : k0 = key
      · simp [insert_rate, lookup_rate, h]
      · simp [insert_rate, lookup_rate, h]
    · by_cases h : k0 = key
      · subst h
        have hkk : ¬ k = k0 := fun hk => h0 hk.symm
        simp [insert_rate, lookup_rate, if_neg h0, if_neg hkk]
      · simp only [insert_rate, if_neg h0, lookup_rate, if_neg h, ih]

theorem lookup_rel_push (rel : List (ℕ × List ℕ)) (k t : ℕ) (key : ℕ) :
    lookup_rel (push_rel rel k t) key =
      if k = key then lookup_rel rel key ++ [t] else lookup_rel rel key := by
  induction rel with
  | nil =>
    by_cases h : k = key
    · simp [push_rel, lookup_rel, h]
    · simp [push_rel, lookup_rel, h]
  | cons p rel ih =>
    rcases p with ⟨k0, vs⟩
    by_cases h0 : k0 = k
    · subst h0
      by_cases h : k0 = key
      · simp [push_rel, lookup_rel, h]
      · simp [push_rel, lookup_rel, h]
    · by_cases h : k0 = key
      · subst h
        have hkk : ¬ k = k0 := fun hk => h0 hk.symm
        simp [push_rel, lookup_rel, if_neg h0, if_neg hkk]
      · simp only [push_rel, if_neg h0, lookup_rel, if_neg h, ih]

theorem rate_between_inner_none (fuel : ℕ) :
    ∀ (g : ExchangeGraph) (base target : ℕ) (appeared : List ℕ),
      (ExchangeGraph.rate_between_inner fuel g base target appeared).1 = none →
      (ExchangeGraph.rate_between_inner fuel g base target appeared).2 = g := by
  induction fuel with
  | zero => intro g base target appeared _; rfl
  | succ fuel ih =>
    intro g base target appeared hnone
    have hstep : ∀ (g' : ExchangeGraph) (i : ℕ),
        (ExchangeGraph.search_step fuel base target appeared (none, g') i).1 = none →
        (ExchangeGraph.search_step fuel base target appeared (none, g') i).2 = g' := by
      intro g' i hsn
      unfold ExchangeGraph.search_step at hsn ⊢
      dsimp only at hsn ⊢
      rcases hlr : lookup_rate g'.rates (base, i) with _ | r1
      · rfl
      · rcases hrec : ExchangeGraph.rate_between_inner fuel g' i target
            (i :: appeared) with ⟨ro, g''⟩
        rcases ro with _ | r2
        · have h3 := ih g' i target (i :: appeared)
          rw [hrec] at h3
          exact h3 rfl
        · rw [hrec] at hsn
          rw [hlr] at hsn
          simp at hsn
    rcases hri : ExchangeGraph.rate_inner g base target with _ | r
    · have heq : ExchangeGraph.rate_between_inner (fuel + 1) g base target appeared =
          ((lookup_rel g.direct_relations base).filter
            (fun i => ! appeared.contains i)).foldl
            (ExchangeGraph.search_step fuel base target appeared) (none, g) := by
        rw [rate_between_inner_succ, hri]
      rw [heq] at hnone ⊢
      generalize hns : (lookup_rel g.direct_relations base).filter
          (fun i => ! appeared.contains i) = ns at hnone ⊢
      clear hns hri heq
      induction ns generalizing g with
      | nil => rfl
      | cons i ns ihn =>
        rcases hs0 : ExchangeGraph.search_step fuel base target appeared (none, g) i
            with ⟨ro, g1⟩
        rw [List.foldl_cons, hs0] at hnone
        rw [List.foldl_cons, hs0]
        rcases ro with _ | r
        · have hg1 : g1 = g := by
            have h2 := hstep g i
            rw [hs0] at h2
            exact h2 rfl
          subst hg1
          exact ihn g1 hnone
        · rw [search_fold_some] at hnone
          simp at hnone
    · have heq2 : ExchangeGraph.rate_between_inner (fuel + 1) g base target appeared =
          (some r, g) := by
        rw [rate_between_inner_succ, hri]
      rw [heq2] at hnone
      simp at hnone


theorem search_fold_some_shape (fuel : ℕ) (base target : ℕ) (appeared : List ℕ) :
    ∀ (ns : List ℕ) (g : ExchangeGraph) (r : ℚ) (gf : ExchangeGraph),
      ns.foldl (ExchangeGraph.search_step fuel base target appeared) (none, g) =
        (some r, gf) →
      ∃ gm : ExchangeGraph,
        gf.rates = insert_rate gm.rates (base, target) r ∧
        gf.direct_relations = push_rel gm.direct_relations base target := by
  intro ns
  induction ns with
  | nil =>
    intro g r gf h
    exact absurd h (by simp)
  | cons i ns ihn =>
    intro g r gf h
    rcases hs0 : ExchangeGraph.search_step fuel base target appeared (none, g) i
        with ⟨ro, g1⟩
    rw [List.foldl_cons, hs0] at h
    rcases ro with _ | r0
    · exact ihn g1 r gf h
    · rw [search_fold_some] at h
      have hr : r0 = r := by
        have := congrArg Prod.fst h
        simpa using this
      have hg : g1 = gf := congrArg Prod.snd h
      subst hr
      subst hg
      unfold ExchangeGraph.search_step at hs0
      dsimp only at hs0
      rcases hlr : lookup_rate g.rates (base, i) with _ | r1
      · rw [hlr] at hs0
        simp at hs0
      · rw [hlr] at hs0
        rcases hrec : ExchangeGraph.rate_between_inner fuel g i target
            (i :: appeared) with ⟨ro2, g''⟩
        rw [hrec] at hs0
        rcases ro2 with _ | r2
        · simp at hs0
        · dsimp only at hs0
          have hval : r1 * r2 = r0 := by
            have := congrArg Prod.fst hs0
            simpa using this
          have hgf := congrArg Prod.snd hs0
          dsimp only at hgf
          refine ⟨g'', ?_, ?_⟩
          · rw [← hgf, ← hval]
          · rw [← hgf]

/-- C9: when `rate_between(a, b)` finds a composite rate `r` through
intermediates (no direct entry existed and `a ≠ b`), it memoizes: the
returned graph holds `(a, b) ↦ r` in the rate map and `b` in `a`'s neighbour
list, and a second `rate_between(a, b)` call answers `Some r` by the direct
`rate_inner` lookup, without traversal and without further mutation. -/
theorem rate_between_memoizes (g : ExchangeGraph) (a b : ℕ) (r : ℚ)
    (g1 : ExchangeGraph)
    (hne : a ≠ b)
    (hdirect : lookup_rate g.rates (a, b) = none)
    (hres : g.rate_between a b = (some r, g1)) :
    lookup_rate g1.rates (a, b) = some r ∧
    b ∈ lookup_rel g1.direct_relations a ∧
    g1.rate_inner a b = some r ∧
    g1.rate_between a b = (some r, g1) := by
  have hri : ExchangeGraph.rate_inner g a b = none := by
    unfold ExchangeGraph.rate_inner
    rw [if_neg hne, hdirect]
  obtain ⟨n, hfuel⟩ : ∃ n, g.graph_fuel = n + 1 := ⟨_, rfl⟩
  unfold ExchangeGraph.rate_between at hres
  rw [hfuel, rate_between_inner_succ, hri] at hres
  dsimp only at hres
  obtain ⟨gm, hrates, hrels⟩ := search_fold_some_shape n a b [] _ g r g1 hres
  have h1 : lookup_rate g1.rates (a, b) = some r := by
    rw [hrates, lookup_insert_rate]
    simp
  have h2 : b ∈ lookup_rel g1.direct_relations a := by
    rw [hrels, lookup_rel_push]
    simp
  have h3 : g1.rate_inner a b = some r := by
    unfold ExchangeGraph.rate_inner
    rw [if_neg hne, h1]
  refine ⟨h1, h2, h3, ?_⟩
  obtain ⟨m, hfuel1⟩ : ∃ m, g1.graph_fuel = m + 1 := ⟨_, rfl⟩
  unfold ExchangeGraph.rate_between
  rw [hfuel1, rate_between_inner_succ, h3]

/-- C9 witness: the graph of `1 BTC = 2 ETH`, `1 ETH = 5 XRP` (ids 1, 2, 3).
`rate_between(1, 3)` finds `2 * 5 = 10` through the intermediate 2 and
memoizes it; the second call answers by direct lookup. -/
theorem rate_between_memoizes_witness :
    lookup_rate
      (⟨[((1, 2), 2), ((2, 1), 1/2), ((2, 3), 5), ((3, 2), 1/5), ((1, 3), 10)],
        [(1, [2, 3]), (2, [1, 3]), (3, [2])]⟩ : ExchangeGraph).rates (1, 3) =
        some 10 ∧
    3 ∈ lookup_rel
      (⟨[((1, 2), 2), ((2, 1), 1/2), ((2, 3), 5), ((3, 2), 1/5), ((1, 3), 10)],
        [(1, [2, 3]), (2, [1, 3]), (3, [2])]⟩ : ExchangeGraph).direct_relations 1 ∧
    (⟨[((1, 2), 2), ((2, 1), 1/2), ((2, 3), 5), ((3, 2), 1/5), ((1, 3), 10)],
        [(1, [2, 3]), (2, [1, 3]), (3, [2])]⟩ : ExchangeGraph).rate_inner 1 3 =
        some 10 ∧
    (⟨[((1, 2), 2), ((2, 1), 1/2), ((2, 3), 5), ((3, 2), 1/5), ((1, 3), 10)],
        [(1, [2, 3]), (2, [1, 3]), (3, [2])]⟩ : ExchangeGraph).rate_between 1 3 =
      (some 10,
        ⟨[((1, 2), 2), ((2, 1), 1/2), ((2, 3), 5), ((3, 2), 1/5), ((1, 3), 10)],
          [(1, [2, 3]), (2, [1, 3]), (3, [2])]⟩) :=
  rate_between_memoizes (ExchangeGraph.from_rates [(1, 2, 2), (2, 3, 5)]) 1 3 10
    ⟨[((1, 2), 2), ((2, 1), 1/2), ((2, 3), 5), ((3, 2), 1/5), ((1, 3), 10)],
      [(1, [2, 3]), (2, [1, 3]), (3, [2])]⟩
    (by norm_num)
    (by norm_num [ExchangeGraph.from_rates, insert_rate, lookup_rate, push_rel])
    (by norm_num [ExchangeGraph.from_rates, ExchangeGraph.rate_between,
      ExchangeGraph.graph_fuel, ExchangeGraph.rate_between_inner,
      ExchangeGraph.rate_inner, insert_rate, lookup_rate, push_rel, lookup_rel])

theorem lookup_rate_consistent (v : ℕ → ℚ) (a b : ℕ) (r : ℚ) :
    ∀ m : List ((ℕ × ℕ) × ℚ), rates_consistent v m →
      lookup_rate m (a, b) = some r → r = v a / v b := by
  intro m
  induction m with
  | nil => intro _ h; simp [lookup_rate] at h
  | cons q rest ih =>
    rcases q with ⟨k, w⟩
    intro hc h
    rw [lookup_rate] at h
    by_cases hk : k = (a, b)
    · rw [if_pos hk] at h
      injection h with h
      have hw := hc (k, w) (List.mem_cons_self _ _)
      rw [hk] at hw
      dsimp only at hw
      rw [← h]
      exact hw
    · rw [if_neg hk] at h
      exact ih (fun q hq => hc q (List.mem_cons_of_mem _ hq)) h

theorem insert_rate_consistent (v : ℕ → ℚ) (key : ℕ × ℕ) (val : ℚ)
    (hval : val = v key.1 / v key.2) :
    ∀ m : List ((ℕ × ℕ) × ℚ), rates_consistent v m →
      rates_consistent v (insert_rate m key val) := by
  intro m
  induction m with
  | nil =>
    intro _ p hp
    rw [insert_rate] at hp
    rw [List.mem_singleton.mp hp]
    exact hval
  | cons q rest ih =>
    rcases q with ⟨k, w⟩
    intro hc p hp
    rw [insert_rate] at hp
    by_cases hk : k = key
    · rw [if_pos hk] at hp
      rcases List.mem_cons.mp hp with hpe | hpr
      · rw [hpe]
        dsimp only
        rw [hk]
        exact hval
      · exact hc p (List.mem_cons_of_mem _ hpr)
    · rw [if_neg hk] at hp
      rcases List.mem_cons.mp hp with hpe | hpr
      · exact hc p (by rw [hpe]; exact List.mem_cons_self _ _)
      · exact ih (fun q hq => hc q (List.mem_cons_of_mem _ hq)) p hpr

theorem rate_inner_consistent (v : ℕ → ℚ) (hv : ∀ x, 0 < v x)
    (g : ExchangeGraph) (hc : rates_consistent v g.rates)
    (a b : ℕ) (r : ℚ) (h : g.rate_inner a b = some r) : r = v a / v b := by
  unfold ExchangeGraph.rate_inner at h
  by_cases hab : a = b
  · rw [if_pos hab] at h
    injection h with h
    subst hab
    rw [← h]
    exact (div_self (ne_of_gt (hv a))).symm
  · rw [if_neg hab] at h
    exact lookup_rate_consistent v a b r g.rates hc h

theorem search_fold_sound (v : ℕ → ℚ) (hv : ∀ x, 0 < v x) (fuel : ℕ)
    (base target : ℕ) (appeared : List ℕ)
    (hfuel : ∀ (g : ExchangeGraph) (i : ℕ), rates_consistent v g.rates →
      rates_consistent v
        (ExchangeGraph.rate_between_inner fuel g i target (i :: appeared)).2.rates ∧
      ∀ r, (ExchangeGraph.rate_between_inner fuel g i target (i :: appeared)).1 =
          some r → r = v i / v target) :
    ∀ (ns : List ℕ) (g : ExchangeGraph), rates_consistent v g.rates →
      rates_consistent v
        ((ns.foldl (ExchangeGraph.search_step fuel base target appeared)
          (none, g)).2).rates ∧
      ∀ r, (ns.foldl (ExchangeGraph.search_step fuel base target appeared)
          (none, g)).1 = some r → r = v base / v target := by
  intro ns
  induction ns with
  | nil => exact fun g hc => ⟨hc, fun r h => by simp at h⟩
  | cons i ns ihn =>
    intro g hc
    rcases hs0 : ExchangeGraph.search_step fuel base target appeared (none, g) i
        with ⟨ro, g1⟩
    rw [List.foldl_cons, hs0]
    have hstep : rates_consistent v g1.rates ∧
        ∀ r, ro = some r → r = v base / v target := by
      unfold ExchangeGraph.search_step at hs0
      dsimp only at hs0
      rcases hlr : lookup_rate g.rates (base, i) with _ | r1
      · rw [hlr] at hs0
        have h1 : (none : Option ℚ) = ro := congrArg Prod.fst hs0
        have h2 : g = g1 := congrArg Prod.snd hs0
        refine ⟨h2 ▸ hc, fun r h => ?_⟩
        rw [← h1] at h
        simp at h
      · rw [hlr] at hs0
        rcases hrec : ExchangeGraph.rate_between_inner fuel g i target
            (i :: appeared) with ⟨ro2, g2⟩
        rw [hrec] at hs0
        have hih := hfuel g i hc
        rw [hrec] at hih
        rcases ro2 with _ | r2
        · dsimp only at hs0
          have h1 : (none : Option ℚ) = ro := congrArg Prod.fst hs0
          have h2 : g2 = g1 := congrArg Prod.snd hs0
          refine ⟨h2 ▸ hih.1, fun r h => ?_⟩
          rw [← h1] at h
          simp at h
        · dsimp only at hs0
          have h1 : some (r1 * r2) = ro := congrArg Prod.fst hs0
          have h2 := congrArg Prod.snd hs0
          dsimp only at h2
          have hr1 : r1 = v base / v i :=
            lookup_rate_consistent v base i r1 g.rates hc hlr
          have hr2 : r2 = v i / v target := hih.2 r2 rfl
          have hi0 : v i ≠ 0 := ne_of_gt (hv i)
          have ht0 : v target ≠ 0 := ne_of_gt (hv target)
          have hb0 : v base ≠ 0 := ne_of_gt (hv base)
          have hprod : r1 * r2 = v base / v target := by
            rw [hr1, hr2]
            field_simp
          refine ⟨?_, fun r h => ?_⟩
          · rw [← h2]
            exact insert_rate_consistent v (base, target) (r1 * r2) hprod
              g2.rates hih.1
          · rw [← h1] at h
            injection h with h
            rw [← h]
            exact hprod
    rcases ro with _ | r
    · exact ihn g1 hstep.1
    · rw [search_fold_some]
      refine ⟨hstep.1, fun r' h => ?_⟩
      have hrr : r = r' := by injection h
      rw [← hrr]
      exact hstep.2 r rfl

theorem rate_between_inner_sound (v : ℕ → ℚ) (hv : ∀ x, 0 < v x) (fuel : ℕ) :
    ∀ (g : ExchangeGraph) (base target : ℕ) (appeared : List ℕ),
      rates_consistent v g.rates →
      rates_consistent v
        (ExchangeGraph.rate_between_inner fuel g base target appeared).2.rates ∧
      ∀ r, (ExchangeGraph.rate_between_inner fuel g base target appeared).1 =
          some r → r = v base / v target := by
  induction fuel with
  | zero =>
    intro g base target appeared hc
    exact ⟨hc, fun r h => by simp [ExchangeGraph.rate_between_inner] at h⟩
  | succ fuel ih =>
    intro g base target appeared hc
    rcases hri : ExchangeGraph.rate_inner g base target with _ | r0
    · have heq : ExchangeGraph.rate_between_inner (fuel + 1) g base target appeared =
          ((lookup_rel g.direct_relations base).filter
            (fun i => ! appeared.contains i)).foldl
            (ExchangeGraph.search_step fuel base target appeared) (none, g) := by
        rw [rate_between_inner_succ, hri]
      rw [heq]
      exact search_fold_sound v hv fuel base target appeared
        (fun g' i hcg => ih g' i target (i :: appeared) hcg) _ g hc
    · have heq2 : ExchangeGraph.rate_between_inner (fuel + 1) g base target appeared =
          (some r0, g) := by
        rw [rate_between_inner_succ, hri]
      rw [heq2]
      refine ⟨hc, fun r h => ?_⟩
      have hrr : r0 = r := by injection h
      rw [← hrr]
      exact rate_inner_consistent v hv g hc base target r0 hri

theorem rate_between_sound (v : ℕ → ℚ) (hv : ∀ x, 0 < v x) (g : ExchangeGraph)
    (a b : ℕ) (hc : rates_consistent v g.rates) :
    rates_consistent v ((g.rate_between a b).2).rates ∧
    ∀ r, (g.rate_between a b).1 = some r → r = v a / v b :=
  rate_between_inner_sound v hv g.graph_fuel g a b [] hc

theorem lookup_rate_isSome_insert (m : List ((ℕ × ℕ) × ℚ)) (k : ℕ × ℕ) (v : ℚ)
    (key : ℕ × ℕ) (h : (lookup_rate m key).isSome) :
    (lookup_rate (insert_rate m k v) key).isSome := by
  rw [lookup_insert_rate]
  by_cases hk : k = key
  · rw [if_pos hk]
    rfl
  · rw [if_neg hk]
    exact h

theorem search_fold_edge_mono (fuel : ℕ) (base target : ℕ) (appeared : List ℕ)
    (x y : ℕ)
    (hfuel : ∀ (g : ExchangeGraph) (i : ℕ),
      ExchangeGraph.edge g x y →
      ExchangeGraph.edge
        (ExchangeGraph.rate_between_inner fuel g i target (i :: appeared)).2 x y) :
    ∀ (ns : List ℕ) (g : ExchangeGraph), ExchangeGraph.edge g x y →
      ExchangeGraph.edge
        ((ns.foldl (ExchangeGraph.search_step fuel base target appeared)
          (none, g)).2) x y := by
  intro ns
  induction ns with
  | nil => exact fun g h => h
  | cons i ns ihn =>
    intro g he
    rcases hs0 : ExchangeGraph.search_step fuel base target appeared (none, g) i
        with ⟨ro, g1⟩
    rw [List.foldl_cons, hs0]
    have hstep : ExchangeGraph.edge g1 x y := by
      unfold ExchangeGraph.search_step at hs0
      dsimp only at hs0
      rcases hlr : lookup_rate g.rates (base, i) with _ | r1
      · rw [hlr] at hs0
        have h2 : g = g1 := congrArg Prod.snd hs0
        exact h2 ▸ he
      · rw [hlr] at hs0
        rcases hrec : ExchangeGraph.rate_between_inner fuel g i target
            (i :: appeared) with ⟨ro2, g2⟩
        rw [hrec] at hs0
        have hih := hfuel g i he
        rw [hrec] at hih
        rcases ro2 with _ | r2
        · have h2 : g2 = g1 := congrArg Prod.snd hs0
          exact h2 ▸ hih
        · dsimp only at hs0
          have h2 := congrArg Prod.snd hs0
          dsimp only at h2
          rw [← h2]
          refine ⟨?_, ?_⟩
          · show y ∈ lookup_rel (push_rel g2.direct_relations base target) x
            rw [lookup_rel_push]
            by_cases hbx : base = x
            · rw [if_pos hbx]
              exact List.mem_append_left _ hih.1
            · rw [if_neg hbx]
              exact hih.1
          · show (lookup_rate (insert_rate g2.rates (base, target) (r1 * r2))
              (x, y)).isSome
            exact lookup_rate_isSome_insert _ _ _ _ hih.2
    rcases ro with _ | r
    · exact ihn g1 hstep
    · rw [search_fold_some]
      exact hstep

theorem rate_between_inner_edge_mono (fuel : ℕ) :
    ∀ (g : ExchangeGraph) (base target : ℕ) (appeared : List ℕ) (x y : ℕ),
      ExchangeGraph.edge g x y →
      ExchangeGraph.edge
        (ExchangeGraph.rate_between_inner fuel g base target appeared).2 x y := by
  induction fuel with
  | zero => exact fun g base target appeared x y h => h
  | succ fuel ih =>
    intro g base target appeared x y he
    rcases hri : ExchangeGraph.rate_inner g base target with _ | r0
    · have heq : ExchangeGraph.rate_between_inner (fuel + 1) g base target appeared =
          ((lookup_rel g.direct_relations base).filter
            (fun i => ! appeared.contains i)).foldl
            (ExchangeGraph.search_step fuel base target appeared) (none, g) := by
        rw [rate_between_inner_succ, hri]
      rw [heq]
      exact search_fold_edge_mono fuel base target appeared x y
        (fun g' i h' => ih g' i target (i :: appeared) x y h') _ g he
    · have heq2 : ExchangeGraph.rate_between_inner (fuel + 1) g base target appeared =
          (some r0, g) := by
        rw [rate_between_inner_succ, hri]
      rw [heq2]
      exact he

theorem search_step_graph_none (fuel : ℕ) (base target : ℕ) (appeared : List ℕ)
    (g : ExchangeGraph) (i : ℕ)
    (h : (ExchangeGraph.search_step fuel base target appeared (none, g) i).1 = none) :
    (ExchangeGraph.search_step fuel base target appeared (none, g) i).2 = g := by
  unfold ExchangeGraph.search_step at h ⊢
  dsimp only at h ⊢
  rcases hlr : lookup_rate g.rates (base, i) with _ | r1
  · rfl
  · rcases hrec : ExchangeGraph.rate_between_inner fuel g i target (i :: appeared)
      with ⟨ro, g2⟩
    rcases ro with _ | r2
    · have h3 := rate_between_inner_none fuel g i target (i :: appeared)
      rw [hrec] at h3
      exact h3 rfl
    · rw [hrec] at h
      rw [hlr] at h
      simp at h

theorem search_fold_reaches (fuel : ℕ) (base target : ℕ) (appeared : List ℕ) :
    ∀ (ns : List ℕ) (g : ExchangeGraph) (i : ℕ), i ∈ ns →
      ((ExchangeGraph.search_step fuel base target appeared (none, g) i).1).isSome →
      ((ns.foldl (ExchangeGraph.search_step fuel base target appeared)
        (none, g)).1).isSome := by
  intro ns
  induction ns with
  | nil => intro g i hmem; exact absurd hmem (List.not_mem_nil _)
  | cons j ns ihn =>
    intro g i hmem hsome
    rcases hs0 : ExchangeGraph.search_step fuel base target appeared (none, g) j
        with ⟨ro, g1⟩
    rw [List.foldl_cons, hs0]
    rcases ro with _ | r
    · have hg1 : g1 = g := by
        have h2 := search_step_graph_none fuel base target appeared g j
        rw [hs0] at h2
        exact h2 rfl
      subst hg1
      rcases List.mem_cons.mp hmem with rfl | hmem2
      · rw [hs0] at hsome
        simp at hsome
      · exact ihn _ i hmem2 hsome
    · rw [search_fold_some]
      simp

theorem rate_between_inner_complete :
    ∀ (p : List ℕ) (fuel : ℕ) (g : ExchangeGraph) (a b : ℕ) (appeared : List ℕ),
      p.length < fuel →
      List.Chain (ExchangeGraph.edge g) a p →
      (a :: p).getLast? = some b →
      p.Nodup →
      (∀ x ∈ p, x ∉ appeared) →
      ((ExchangeGraph.rate_between_inner fuel g a b appeared).1).isSome := by
  intro p
  induction p with
  | nil =>
    intro fuel g a b appeared hlen _ hlast _ _
    rcases fuel with _ | f
    · exact absurd hlen (Nat.not_lt_zero _)
    · have hab : a = b := by simpa using hlast
      subst hab
      rw [rate_between_inner_succ]
      have h1 : ExchangeGraph.rate_inner g a a = some 1 := by
        unfold ExchangeGraph.rate_inner
        rw [if_pos rfl]
      rw [h1]
      rfl
  | cons i p ihp =>
    intro fuel g a b appeared hlen hchain hlast hnodup happ
    rcases fuel with _ | f
    · exact absurd hlen (Nat.not_lt_zero _)
    · rw [rate_between_inner_succ]
      rw [List.chain_cons] at hchain
      obtain ⟨hai, hchain2⟩ := hchain
      rcases hri : ExchangeGraph.rate_inner g a b with _ | r
      · dsimp only
        have hmem : i ∈ (lookup_rel g.direct_relations a).filter
            (fun x => ! appeared.contains x) := by
          apply List.mem_filter.mpr
          refine ⟨hai.1, ?_⟩
          have hni : i ∉ appeared := happ i (List.mem_cons_self _ _)
          simpa using hni
        apply search_fold_reaches f a b appeared _ g i hmem
        unfold ExchangeGraph.search_step
        dsimp only
        rcases hlr : lookup_rate g.rates (a, i) with _ | r1
        · exact absurd hai.2 (by rw [hlr]; simp)
        · have hlen2 : p.length < f := by
            simp at hlen
            omega
          have hlast2 : (i :: p).getLast? = some b := by
            have h4 := hlast
            rw [List.getLast?_cons_cons] at h4
            exact h4
          have happ2 : ∀ x ∈ p, x ∉ i :: appeared := by
            intro x hx
            rw [List.mem_cons]
            push_neg
            constructor
            · intro hxi
              subst hxi
              exact (List.nodup_cons.mp hnodup).1 hx
            · exact happ x (List.mem_cons_of_mem _ hx)
          have hrecS := ihp f g i b (i :: appeared) hlen2 hchain2 hlast2
            (List.Nodup.of_cons hnodup) happ2
          rcases hrec : ExchangeGraph.rate_between_inner f g i b (i :: appeared)
              with ⟨ro, g2⟩
          rw [hrec] at hrecS
          rcases ro with _ | r2
          · simp at hrecS
          · rfl
      · rfl

theorem chain_shorten (r : ℕ → ℕ → Prop) :
    ∀ (n : ℕ) (p : List ℕ) (a b : ℕ), p.length ≤ n →
      List.Chain r a p → (a :: p).getLast? = some b →
      ∃ q : List ℕ, List.Chain r a q ∧ (a :: q).getLast? = some b ∧ q.Nodup ∧
        (∀ x ∈ q, x ∈ p) ∧ q.length ≤ p.length := by
  intro n
  induction n with
  | zero =>
    intro p a b hlen hchain hlast
    have hp : p = [] := List.length_eq_zero.mp (Nat.le_zero.mp hlen)
    subst hp
    exact ⟨[], List.Chain.nil, hlast, List.nodup_nil,
      fun x hx => absurd hx (List.not_mem_nil _), Nat.le_refl _⟩
  | succ n ihn =>
    intro p a b hlen hchain hlast
    rcases p with _ | ⟨i, p2⟩
    · exact ⟨[], List.Chain.nil, hlast, List.nodup_nil,
        fun x hx => absurd hx (List.not_mem_nil _), Nat.le_refl _⟩
    · rw [List.chain_cons] at hchain
      obtain ⟨hai, hch2⟩ := hchain
      have hlast2 : (i :: p2).getLast? = some b := by
        have h4 := hlast
        rw [List.getLast?_cons_cons] at h4
        exact h4
      have hlen2 : p2.length ≤ n := by
        simp at hlen
        omega
      obtain ⟨q1, hq1c, hq1l, hq1n, hq1s, hq1len⟩ := ihn p2 i b hlen2 hch2 hlast2
      by_cases hiq : i ∈ q1
      · obtain ⟨u, w, huw⟩ := List.append_of_mem hiq
        subst huw
        have hsplit : List.Chain r i w := (List.chain_split.mp hq1c).2
        have hlastw : (i :: w).getLast? = some b := by
          have h5 : i :: (u ++ i :: w) = (i :: u) ++ i :: w := by simp
          rw [h5, List.getLast?_append_cons] at hq1l
          exact hq1l
        have hlen3 : (i :: w).length ≤ n := by
          simp only [List.length_cons, List.length_append] at hq1len ⊢
          omega
        have hchain3 : List.Chain r a (i :: w) := List.chain_cons.mpr ⟨hai, hsplit⟩
        have hlast3 : (a :: i :: w).getLast? = some b := by
          rw [List.getLast?_cons_cons]
          exact hlastw
        obtain ⟨q, hqc, hql, hqn, hqs, hqlen⟩ := ihn (i :: w) a b hlen3 hchain3 hlast3
        refine ⟨q, hqc, hql, hqn, fun x hx => ?_, ?_⟩
        · rcases List.mem_cons.mp (hqs x hx) with rfl | hxw
          · exact List.mem_cons_self _ _
          · exact List.mem_cons_of_mem _
              (hq1s x (List.mem_append_right _ (List.mem_cons_of_mem _ hxw)))
        · simp only [List.length_cons, List.length_append] at hqlen hq1len ⊢
          omega
      · refine ⟨i :: q1, List.chain_cons.mpr ⟨hai, hq1c⟩, ?_,
          List.nodup_cons.mpr ⟨hiq, hq1n⟩, fun x hx => ?_, ?_⟩
        · rw [List.getLast?_cons_cons]
          exact hq1l
        · rcases List.mem_cons.mp hx with rfl | hx2
          · exact List.mem_cons_self _ _
          · exact List.mem_cons_of_mem _ (hq1s x hx2)
        · simp only [List.length_cons]
          omega

theorem lookup_rel_subset_flatten (x : ℕ) :
    ∀ (rel : List (ℕ × List ℕ)) (key : ℕ), x ∈ lookup_rel rel key →
      x ∈ (rel.map Prod.snd).flatten := by
  intro rel
  induction rel with
  | nil => intro key h; simp [lookup_rel] at h
  | cons q rest ih =>
    rcases q with ⟨k, vs⟩
    intro key h
    rw [lookup_rel] at h
    rw [List.map_cons, List.flatten_cons]
    by_cases hk : k = key
    · rw [if_pos hk] at h
      exact List.mem_append_left _ h
    · rw [if_neg hk] at h
      exact List.mem_append_right _ (ih key h)

theorem chain_mem_flatten (g : ExchangeGraph) :
    ∀ (p : List ℕ) (a : ℕ), List.Chain (ExchangeGraph.edge g) a p →
      ∀ x ∈ p, x ∈ (g.direct_relations.map Prod.snd).flatten := by
  intro p
  induction p with
  | nil => intro a _ x hx; exact absurd hx (List.not_mem_nil _)
  | cons i p ih =>
    intro a hchain x hx
    rw [List.chain_cons] at hchain
    rcases List.mem_cons.mp hx with rfl | hx2
    · exact lookup_rel_subset_flatten x g.direct_relations a hchain.1.1
    · exact ih i hchain.2 x hx2

theorem rate_between_complete (g : ExchangeGraph) (a b : ℕ)
    (hconn : Relation.ReflTransGen (ExchangeGraph.edge g) a b) :
    ((g.rate_between a b).1).isSome := by
  obtain ⟨p, hchain, hlast⟩ := List.exists_chain_of_relationReflTransGen hconn
  have hlast? : (a :: p).getLast? = some b := by
    rw [List.getLast?_eq_getLast_of_ne_nil (List.cons_ne_nil _ _), hlast]
  obtain ⟨q, hqc, hql, hqn, hqs, _⟩ :=
    chain_shorten (ExchangeGraph.edge g) p.length p a b (Nat.le_refl _) hchain hlast?
  have hsub : ∀ x ∈ q, x ∈ (g.direct_relations.map Prod.snd).flatten :=
    fun x hx => chain_mem_flatten g p a hchain x (hqs x hx)
  have hfuel : q.length < g.graph_fuel := by
    have hperm : List.Subperm q ((g.direct_relations.map Prod.snd).flatten) :=
      List.subperm_of_subset hqn hsub
    have hle := List.Subperm.length_le hperm
    unfold ExchangeGraph.graph_fuel
    omega
  unfold ExchangeGraph.rate_between
  exact rate_between_inner_complete q g.graph_fuel g a b [] hfuel hqc hql hqn
    (fun x _ hx => absurd hx (List.not_mem_nil _))

theorem biedge_symmetric (g : ExchangeGraph) : Symmetric g.biedge :=
  fun _ _ h => ⟨h.2, h.1⟩

/-- C8 (amended): on a rate-consistent graph — every stored rate is the ratio
of two positive currency valuations, as quoting all rates from one price
source produces — for any pair `a`, `b` connected by undirected search edges,
`rate_between(a, b)` returns `Some (v a / v b)`, the follow-up
`rate_between(b, a)` on the returned (possibly memoized) graph returns
`Some (v b / v a)`, and the product of the two rates is exactly 1.  For an
arbitrary (inconsistent) graph the product can be far from 1, see the
counterexample. -/
theorem rate_between_inverse (g : ExchangeGraph) (v : ℕ → ℚ)
    (hv : ∀ x, 0 < v x)
    (hcons : rates_consistent v g.rates)
    (a b : ℕ)
    (hconn : Relation.ReflTransGen g.biedge a b) :
    ∃ (r1 r2 : ℚ),
      (g.rate_between a b).1 = some r1 ∧
      (((g.rate_between a b).2).rate_between b a).1 = some r2 ∧
      r1 = v a / v b ∧ r2 = v b / v a ∧ r1 * r2 = 1 := by
  have hconn1 : Relation.ReflTransGen g.edge a b :=
    Relation.ReflTransGen.mono (fun x y h => h.1) hconn
  have h1some := rate_between_complete g a b hconn1
  obtain ⟨r1, hr1⟩ := Option.isSome_iff_exists.mp h1some
  have hsound := rate_between_sound v hv g a b hcons
  have hr1v : r1 = v a / v b := hsound.2 r1 hr1
  have hcons1 : rates_consistent v ((g.rate_between a b).2).rates := hsound.1
  have hedge1 : ∀ x y, g.edge x y → ((g.rate_between a b).2).edge x y :=
    fun x y he => rate_between_inner_edge_mono g.graph_fuel g a b [] x y he
  have hsymm : Relation.ReflTransGen g.biedge b a :=
    Relation.ReflTransGen.symmetric (biedge_symmetric g) hconn
  have hconn2 : Relation.ReflTransGen ((g.rate_between a b).2).edge b a :=
    Relation.ReflTransGen.mono (fun x y h => hedge1 x y h.1) hsymm
  have h2some := rate_between_complete ((g.rate_between a b).2) b a hconn2
  obtain ⟨r2, hr2⟩ := Option.isSome_iff_exists.mp h2some
  have hsound2 := rate_between_sound v hv ((g.rate_between a b).2) b a hcons1
  have hr2v : r2 = v b / v a := hsound2.2 r2 hr2
  refine ⟨r1, r2, hr1, hr2, hr1v, hr2v, ?_⟩
  rw [hr1v, hr2v]
  have ha0 : v a ≠ 0 := ne_of_gt (hv a)
  have hb0 : v b ≠ 0 := ne_of_gt (hv b)
  field_simp

/-- C8 counterexample: in a graph whose quoted rates are mutually inconsistent
(1→3 at 2, 2→4 at 1, 3→2 at 1, 4→1 at 1), currencies 1 and 2 are connected,
`rate_between(1, 2)` answers 2 through intermediate 3, the follow-up
`rate_between(2, 1)` answers 1 through intermediate 4, and the product
2 * 1 = 2 is not 1 — no floating-point tolerance covers a factor of 2 — so
the claim fails for arbitrary connected graphs. -/
theorem rate_between_inverse_counterexample :
    ((ExchangeGraph.from_rates
        [(1, 3, 2), (2, 4, 1), (3, 2, 1), (4, 1, 1)]).rate_between 1 2).1 =
      some 2 ∧
    ((((ExchangeGraph.from_rates
        [(1, 3, 2), (2, 4, 1), (3, 2, 1), (4, 1, 1)]).rate_between 1 2).2).rate_between
          2 1).1 =
      some 1 ∧
    ¬ ((2 : ℚ) * 1 = 1) := by
  refine ⟨?_, ?_, by norm_num⟩ <;>
    norm_num [ExchangeGraph.from_rates, ExchangeGraph.rate_between,
      ExchangeGraph.graph_fuel, ExchangeGraph.rate_between_inner,
      ExchangeGraph.rate_inner, insert_rate, lookup_rate, push_rel, lookup_rel]

/-- C8 witness: consistent two-hop graph `1 BTC = 2 ETH`, `1 ETH = 5 XRP`
(valuations 10, 5, 1); the two opposite searches return `10 / 1` and
`1 / 10`, multiplying to 1. -/
theorem rate_between_inverse_witness :
    ∃ (r1 r2 : ℚ),
      ((ExchangeGraph.from_rates [(1, 2, 2), (2, 3, 5)]).rate_between 1 3).1 =
        some r1 ∧
      ((((ExchangeGraph.from_rates [(1, 2, 2), (2, 3, 5)]).rate_between 1 3).2).rate_between
          3 1).1 = some r2 ∧
      r1 = (10 : ℚ) / 1 ∧ r2 = (1 : ℚ) / 10 ∧ r1 * r2 = 1 :=
  rate_between_inverse (ExchangeGraph.from_rates [(1, 2, 2), (2, 3, 5)])
    (fun x => if x = 1 then (10 : ℚ) else if x = 2 then 5 else 1)
    (by
      intro x
      by_cases h1 : x = 1 <;> by_cases h2 : x = 2 <;> simp [h1, h2])
    (by
      intro p hp
      have hr : (ExchangeGraph.from_rates [(1, 2, 2), (2, 3, 5)]).rates =
          [((1, 2), 2), ((2, 1), 1/2), ((2, 3), 5), ((3, 2), 1/5)] := by
        norm_num [ExchangeGraph.from_rates, insert_rate, push_rel]
      rw [hr] at hp
      fin_cases hp <;> norm_num)
    1 3
    (by
      have e12 : (ExchangeGraph.from_rates [(1, 2, 2), (2, 3, 5)]).biedge 1 2 := by
        refine ⟨⟨?_, ?_⟩, ⟨?_, ?_⟩⟩ <;>
          norm_num [ExchangeGraph.from_rates, insert_rate, lookup_rate,
            push_rel, lookup_rel]
      have e23 : (ExchangeGraph.from_rates [(1, 2, 2), (2, 3, 5)]).biedge 2 3 := by
        refine ⟨⟨?_, ?_⟩, ⟨?_, ?_⟩⟩ <;>
          norm_num [ExchangeGraph.from_rates, insert_rate, lookup_rate,
            push_rel, lookup_rel]
      exact Relation.ReflTransGen.head e12 (Relation.ReflTransGen.single e23))

end AssetMgmt
